import Mathlib

/-!
Verification of the Photomini interactive raster-editing engine.

This file shallowly embeds the painting pipeline of the PaintCanvas
component (stroke tools, blend-mode tools, face effects), the AI-edit
handler of the App component, and the Gemini service wrapper, and proves
or refutes the frozen claims about them.

Modelling conventions:
* Canvas pixels are RGBA with rational channels on the 0..1 scale and
  straight (non-premultiplied) alpha.  Compositing follows the W3C
  compositing-and-blending specification used by the HTML canvas:
  a blend function on colors followed by Porter-Duff source-over, with
  globalAlpha scaling the source alpha.  Division by a zero output alpha
  yields 0, matching the premultiplied byte storage of a real canvas.
* A canvas raster is a total function from integer pixel coordinates to
  pixels; rasterization of geometric shapes is idealized by sampling the
  shape at the pixel's center (i + 1/2, j + 1/2), ignoring antialiasing.
* Stroke geometry is developed over an arbitrary linear ordered field K
  with a floor, so the same tool definitions serve both exact rational
  evaluation (witnesses, counterexamples) and the real-valued pipeline
  (Math.hypot/atan2 demand real square roots).
* Platform primitives that the source calls but does not implement
  (the CSS Gaussian blur filter, canvas resampling) are parameters of
  the corresponding definitions; everything else is translated from the
  source.
-/

set_option linter.unusedSectionVars false
set_option maxHeartbeats 800000

namespace Photomini

/-- An RGB color, channels on the 0..1 scale. -/
structure Rgb where
  r : ℚ
  g : ℚ
  b : ℚ
deriving DecidableEq, Repr

/-- An RGBA pixel: straight-alpha color plus alpha. -/
structure Pix where
  c : Rgb
  a : ℚ
deriving DecidableEq, Repr

/-- The fully transparent pixel, as a real canvas stores it (all bytes 0). -/
def clearPix : Pix := ⟨⟨0, 0, 0⟩, 0⟩

/-- A pixel value representable by a real canvas byte buffer in this model:
either fully opaque, or the canonical transparent pixel (premultiplied
storage zeroes the color of a fully transparent pixel). -/
def Pix.canonical (p : Pix) : Prop := p.a = 1 ∨ p = clearPix

/-- The color getImageData reports for a pixel: premultiplied storage makes a
fully transparent pixel read back as zero bytes. -/
def storedRgb (p : Pix) : Rgb := if p.a = 0 then ⟨0, 0, 0⟩ else p.c

/-- The `normal` blend function (plain source-over uses it). -/
def normalB : Rgb → Rgb → Rgb := fun _ s => s

/-- The `multiply` blend function (W3C compositing spec). -/
def multiplyB (bd s : Rgb) : Rgb := ⟨bd.r * s.r, bd.g * s.g, bd.b * s.b⟩

/-- The `screen` blend function (W3C compositing spec). -/
def screenB (bd s : Rgb) : Rgb :=
  ⟨bd.r + s.r - bd.r * s.r, bd.g + s.g - bd.g * s.g, bd.b + s.b - bd.b * s.b⟩

/-- The `difference` blend function (W3C compositing spec). -/
def differenceB (bd s : Rgb) : Rgb := ⟨|bd.r - s.r|, |bd.g - s.g|, |bd.b - s.b|⟩

/-- Luminosity of a color (W3C compositing spec). -/
def lumOf (c : Rgb) : ℚ := 3/10 * c.r + 59/100 * c.g + 11/100 * c.b

/-- ClipColor from the W3C compositing spec. -/
def clipColor (c : Rgb) : Rgb :=
  let l := lumOf c
  let n := min c.r (min c.g c.b)
  let c1 : Rgb :=
    if n < 0 then
      ⟨l + (c.r - l) * l / (l - n), l + (c.g - l) * l / (l - n), l + (c.b - l) * l / (l - n)⟩
    else c
  let x1 := max c1.r (max c1.g c1.b)
  if 1 < x1 then
    let l1 := lumOf c1
    ⟨l1 + (c1.r - l1) * (1 - l1) / (x1 - l1),
     l1 + (c1.g - l1) * (1 - l1) / (x1 - l1),
     l1 + (c1.b - l1) * (1 - l1) / (x1 - l1)⟩
  else c1

/-- SetLum from the W3C compositing spec. -/
def setLum (c : Rgb) (l : ℚ) : Rgb :=
  let d := l - lumOf c
  clipColor ⟨c.r + d, c.g + d, c.b + d⟩

/-- Saturation of a color (W3C compositing spec). -/
def satOf (c : Rgb) : ℚ := max c.r (max c.g c.b) - min c.r (min c.g c.b)

/-- SetSat from the W3C compositing spec: rescale the channels so the
ordering is kept, the minimum goes to 0 and the range becomes `s`. -/
def setSat (c : Rgb) (s : ℚ) : Rgb :=
  let n := min c.r (min c.g c.b)
  let x := max c.r (max c.g c.b)
  let mid : ℚ → ℚ := fun v => if x > n then (v - n) * s / (x - n) else 0
  ⟨mid c.r, mid c.g, mid c.b⟩

/-- The `saturation` blend function: saturation of the source with hue and
luminosity of the backdrop (W3C compositing spec). -/
def saturationB (bd s : Rgb) : Rgb := setLum (setSat bd (satOf s)) (lumOf bd)

/-- The `color` blend function: hue and saturation of the source with
luminosity of the backdrop (W3C compositing spec). -/
def colorB (bd s : Rgb) : Rgb := setLum s (lumOf bd)

/-- One canvas compositing step: blend function `B`, source pixel `src`
drawn with globalAlpha `ga` over backdrop `bd`, Porter-Duff source-over.
Straight-alpha form of the W3C formulas; a zero output alpha yields the
canonical transparent pixel because `0 / 0 = 0` in `ℚ`. -/
def compositePix (B : Rgb → Rgb → Rgb) (ga : ℚ) (bd src : Pix) : Pix :=
  let sa := src.a * ga
  let ba := bd.a
  let bc := B bd.c src.c
  let cs : Rgb := ⟨(1 - ba) * src.c.r + ba * bc.r,
                   (1 - ba) * src.c.g + ba * bc.g,
                   (1 - ba) * src.c.b + ba * bc.b⟩
  let ao := sa + ba * (1 - sa)
  ⟨⟨(sa * cs.r + (1 - sa) * ba * bd.c.r) / ao,
    (sa * cs.g + (1 - sa) * ba * bd.c.g) / ao,
    (sa * cs.b + (1 - sa) * ba * bd.c.b) / ao⟩, ao⟩

/-- Plain source-over drawing of `src` over `bd` (default canvas state). -/
def sourceOverPix (bd src : Pix) : Pix := compositePix normalB 1 bd src

/-- Porter-Duff destination-out with an opaque source of alpha `sa`. -/
def destOutPix (bd : Pix) (sa : ℚ) : Pix := ⟨bd.c, bd.a * (1 - sa)⟩

/-! ### Stroke geometry over an ordered field -/

variable {K : Type*} [LinearOrderedField K] [FloorRing K]

/-- Squared Euclidean distance between two points. -/
def distSq (p q : K × K) : K := (p.1 - q.1) ^ 2 + (p.2 - q.2) ^ 2

/-- Membership of a point in the closed disk of radius `r` around `c`
(the circular clip produced by `ctx.arc`). -/
def inDisk (c : K × K) (r : K) (p : K × K) : Bool :=
  decide (distSq p c ≤ r ^ 2)

/-- Point of the segment `a b` at parameter `t`. -/
def segLerp (a b : K × K) (t : K) : K × K :=
  (a.1 + t * (b.1 - a.1), a.2 + t * (b.2 - a.2))

/-- Parameter of the point of segment `a b` closest to `p` (projection
clamped to `[0, 1]`; `0` for a degenerate segment). -/
def closestT (a b p : K × K) : K :=
  let d1 := b.1 - a.1
  let d2 := b.2 - a.2
  let len2 := d1 ^ 2 + d2 ^ 2
  if len2 = 0 then 0
  else min 1 (max 0 (((p.1 - a.1) * d1 + (p.2 - a.2) * d2) / len2))

/-- Squared distance from `p` to the segment `a b`. -/
def distSqToSeg (a b p : K × K) : K := distSq p (segLerp a b (closestT a b p))

/-- Coverage of the region painted by stroking the single segment `a b`
with line width `w`, round caps and round joins: the capsule of radius
`w/2` around the segment.  The WHATWG canvas stroking algorithm prunes
zero-length line segments, so a degenerate segment paints nothing. -/
def capsuleCovers (a b : K × K) (w : K) (p : K × K) : Bool :=
  if a = b then false else decide (distSqToSeg a b p ≤ (w / 2) ^ 2)

/-- Coverage of the region painted by stroking segment `a b` with butt
caps and bevel joins (the censor tool): the points whose projection falls
inside the segment and whose distance to it is at most `w/2`.  Degenerate
segments are pruned as above. -/
def buttCovers (a b : K × K) (w : K) (p : K × K) : Bool :=
  if a = b then false
  else
    let t := ((p.1 - a.1) * (b.1 - a.1) + (p.2 - a.2) * (b.2 - a.2)) /
      ((b.1 - a.1) ^ 2 + (b.2 - a.2) ^ 2)
    decide (0 ≤ t ∧ t ≤ 1 ∧ distSq p (segLerp a b t) ≤ (w / 2) ^ 2)

/-- Center of the pixel with integer coordinates `ij`; shapes are
rasterized by sampling them at pixel centers. -/
def pixCtr (ij : ℤ × ℤ) : K × K := ((ij.1 : K) + 1/2, (ij.2 : K) + 1/2)

/-! ### Canvas rasters and per-sample tool operations -/

/-- A canvas raster: a pixel for every integer coordinate. -/
abbrev Surf : Type := ℤ × ℤ → Pix

/-- The manual tool enumeration of the source. -/
inductive ManualToolType where
  | brush | blur | pixelate | eraser | censor | lighten | darken | tint
  | desaturate | invert
deriving DecidableEq, Repr

/-- Tools routed through the two-buffer blend pipeline
(`['invert', 'desaturate', 'tint', 'lighten', 'darken'].includes(t)`). -/
def isComplexTool (t : ManualToolType) : Bool :=
  t = .invert ∨ t = .desaturate ∨ t = .tint ∨ t = .lighten ∨ t = .darken

/-- Brush settings; `size` is the stroke width / effect diameter and
`intensity` the blur radius or pixel block size. -/
structure BrushSettings (K : Type*) where
  size : K
  color : Rgb
  intensity : K

/-- applyBrush: a round-capped line segment of width `size` in the
configured color, normal compositing over the live surface. -/
def capsulePaint (col : Rgb) (w : K) (a b : K × K) (s : Surf) : Surf :=
  fun ij => if capsuleCovers a b w (pixCtr ij) then ⟨col, 1⟩ else s ij

/-- applyCensor: a butt-capped black line segment of width `size`. -/
def censorPaint (w : K) (a b : K × K) (s : Surf) : Surf :=
  fun ij => if buttCovers a b w (pixCtr ij) then ⟨⟨0, 0, 0⟩, 1⟩ else s ij

/-- applyEraser at one sample point: with a checkpoint image, clip to the
disk of radius `size/2` and draw the checkpoint into it (canvas drawImage
composites source-over); without one, destination-out with an opaque
circular source, which zeroes the alpha inside the disk. -/
def applyEraser (restore : Option Surf) (size : K) (c : K × K) (s : Surf) : Surf :=
  match restore with
  | some img => fun ij =>
      if inDisk c (size / 2) (pixCtr ij) then sourceOverPix (s ij) (img ij) else s ij
  | none => fun ij =>
      if inDisk c (size / 2) (pixCtr ij) then destOutPix (s ij) 1 else s ij

/-- applyBlur at one sample point: the padded capture of the live surface
is blurred by the platform's CSS Gaussian filter — abstracted here as the
already-blurred raster `blurred` — and drawn back source-over inside the
circular clip of radius `size/2`; nothing outside the clip is touched. -/
def applyBlurDisk (blurred : Surf) (size : K) (c : K × K) (s : Surf) : Surf :=
  fun ij =>
    if inDisk c (size / 2) (pixCtr ij) then sourceOverPix (s ij) (blurred ij) else s ij

/-! applyPixelate, decomposed into named pieces so theorems can speak
about the loop's cell grid. -/

/-- Whether the on-canvas pixel `ij` is painted by filling the
`sz`-sided square whose top-left corner is `cell`: the pixel must lie on
the `w × h` canvas and its center must lie inside the square. -/
def cellRectCovers (w h : ℤ) (sz : K) (cell : K × K) (ij : ℤ × ℤ) : Prop :=
  0 ≤ ij.1 ∧ ij.1 < w ∧ 0 ≤ ij.2 ∧ ij.2 < h ∧
  cell.1 ≤ (ij.1 : K) + 1/2 ∧ (ij.1 : K) + 1/2 < cell.1 + sz ∧
  cell.2 ≤ (ij.2 : K) + 1/2 ∧ (ij.2 : K) + 1/2 < cell.2 + sz

instance (w h : ℤ) (sz : K) (cell : K × K) (ij : ℤ × ℤ) :
    Decidable (cellRectCovers w h sz cell ij) := by
  unfold cellRectCovers; infer_instance

/-- fillRect of a `sz`-sided square at `(x, y)` with an opaque color,
clipped to the `w × h` canvas; a pixel is painted when its center lies in
the rectangle. -/
def fillRectOp (w h : ℤ) (x y sz : K) (col : Rgb) (s : Surf) : Surf :=
  fun ij => if cellRectCovers w h sz (x, y) ij then ⟨col, 1⟩ else s ij

/-- Block size `pixelSize = max 2 intensity`. -/
def pixPs (intensity : K) : K := max 2 intensity

/-- `startX = max 0 ⌊cx - size/2⌋`. -/
def pixStartX (size : K) (c : K × K) : ℤ := max 0 ⌊c.1 - size / 2⌋

/-- `startY = max 0 ⌊cy - size/2⌋`. -/
def pixStartY (size : K) (c : K × K) : ℤ := max 0 ⌊c.2 - size / 2⌋

/-- `endX = min w ⌈cx + size/2⌉`. -/
def pixEndX (w : ℤ) (size : K) (c : K × K) : ℤ := min w ⌈c.1 + size / 2⌉

/-- `endY = min h ⌈cy + size/2⌉`. -/
def pixEndY (h : ℤ) (size : K) (c : K × K) : ℤ := min h ⌈c.2 + size / 2⌉

/-- `gridStartX = ⌊startX / pixelSize⌋ * pixelSize`. -/
def pixGridX (size intensity : K) (c : K × K) : K :=
  (⌊(pixStartX size c : K) / pixPs intensity⌋ : ℤ) * pixPs intensity

/-- `gridStartY = ⌊startY / pixelSize⌋ * pixelSize`. -/
def pixGridY (size intensity : K) (c : K × K) : K :=
  (⌊(pixStartY size c : K) / pixPs intensity⌋ : ℤ) * pixPs intensity

/-- Number of grid columns visited by `for (px = gridStartX; px < endX;
px += pixelSize)`. -/
def pixNX (w : ℤ) (size intensity : K) (c : K × K) : ℕ :=
  (⌈((pixEndX w size c : K) - pixGridX size intensity c) / pixPs intensity⌉).toNat

/-- Number of grid rows visited by the `py` loop. -/
def pixNY (h : ℤ) (size intensity : K) (c : K × K) : ℕ :=
  (⌈((pixEndY h size c : K) - pixGridY size intensity c) / pixPs intensity⌉).toNat

/-- The top-left corners of the grid cells visited by the two nested
loops of applyPixelate, row by row. -/
def pixCells (w h : ℤ) (size intensity : K) (c : K × K) : List (K × K) :=
  (List.range (pixNY h size intensity c)).flatMap fun (m : ℕ) =>
    (List.range (pixNX w size intensity c)).map fun (n : ℕ) =>
      (pixGridX size intensity c + (n : K) * pixPs intensity,
       pixGridY size intensity c + (m : K) * pixPs intensity)

/-- The in-radius test of one loop iteration: skip unless the distance
from the cell center to the sample point is at most `size/2`. -/
def pixCellInRadius (size intensity : K) (c : K × K) (cell : K × K) : Bool :=
  inDisk c (size / 2) (cell.1 + pixPs intensity / 2, cell.2 + pixPs intensity / 2)

/-- The bounds test of one loop iteration: the floored cell center,
relative to the captured region, must index into the captured image data. -/
def pixCellInBounds (w h : ℤ) (size intensity : K) (c : K × K) (cell : K × K) : Bool :=
  let sampleX := ⌊cell.1 + pixPs intensity / 2⌋ - pixStartX size c
  let sampleY := ⌊cell.2 + pixPs intensity / 2⌋ - pixStartY size c
  decide (0 ≤ sampleX ∧ sampleX < pixEndX w size c - pixStartX size c ∧
          0 ≤ sampleY ∧ sampleY < pixEndY h size c - pixStartY size c)

/-- The flat color a filled cell receives: the captured pixel at the
floored cell center (the capture is taken before any fill, so every cell
reads pre-call pixels). -/
def pixCellColor (intensity : K) (orig : Surf) (cell : K × K) : Rgb :=
  storedRgb (orig (⌊cell.1 + pixPs intensity / 2⌋, ⌊cell.2 + pixPs intensity / 2⌋))

/-- One iteration of the applyPixelate cell loop. -/
def pixCellStep (w h : ℤ) (size intensity : K) (c : K × K) (orig : Surf)
    (acc : Surf) (cell : K × K) : Surf :=
  if pixCellInRadius size intensity c cell ∧ pixCellInBounds w h size intensity c cell then
    fillRectOp w h cell.1 cell.2 (pixPs intensity) (pixCellColor intensity orig cell) acc
  else acc

/-- applyPixelate at one sample point on a `w × h` canvas. -/
def applyPixelate (w h : ℤ) (size intensity : K) (c : K × K) (s : Surf) : Surf :=
  if pixEndX w size c - pixStartX size c ≤ 0 ∨ pixEndY h size c - pixStartY size c ≤ 0
  then s
  else (pixCells w h size intensity c).foldl (pixCellStep w h size intensity c s) s

/-! ### The two-buffer blend-mode tool engine -/

/-- Stroke color painted into the stroke-mask buffer: solid black for
darken, the configured color for tint, solid white for
lighten/desaturate/invert (the final branch is unreachable for
non-complex tools, which never enter this pipeline). -/
def toolStrokeColor (t : ManualToolType) (st : BrushSettings K) : Rgb :=
  if t = .darken then ⟨0, 0, 0⟩
  else if t = .tint then st.color
  else ⟨1, 1, 1⟩

/-- Blend mode used to composite the stroke mask over the snapshot:
invert→difference, desaturate→saturation, tint→color, lighten→screen,
darken→multiply. -/
def toolBlendFn (t : ManualToolType) : Rgb → Rgb → Rgb :=
  match t with
  | .invert => differenceB
  | .desaturate => saturationB
  | .tint => colorB
  | .lighten => screenB
  | .darken => multiplyB
  | _ => normalB

/-- globalAlpha used for the blend composite: 0.4 for lighten and darken,
1.0 otherwise. -/
def toolBlendAlpha (t : ManualToolType) : ℚ :=
  if t = .lighten ∨ t = .darken then 2/5 else 1

/-- Per-stroke buffers of the blend pipeline: the stroke-start snapshot,
the accumulated stroke mask, and the live canvas. -/
structure ComplexState (K : Type*) [LinearOrderedField K] [FloorRing K] where
  snap : Surf
  mask : Surf
  live : Surf

/-- One pointer sample of a complex tool: stroke the segment into the
mask buffer (round caps, width `size`, the tool's stroke color), then
redraw the snapshot over the live canvas with source-over at full alpha,
then draw the mask over that with the tool's blend mode and alpha. -/
def complexSample (t : ManualToolType) (st : BrushSettings K)
    (cs : ComplexState K) (prev cur : K × K) : ComplexState K :=
  let mask := capsulePaint (toolStrokeColor t st) st.size prev cur cs.mask
  let live1 : Surf := fun ij => sourceOverPix (cs.live ij) (cs.snap ij)
  let live2 : Surf := fun ij =>
    compositePix (toolBlendFn t) (toolBlendAlpha t) (live1 ij) (mask ij)
  ⟨cs.snap, mask, live2⟩

/-- Pointer-down for a complex tool: snapshot the live canvas and clear
the stroke mask. -/
def startComplex (live : Surf) : ComplexState K :=
  ⟨live, fun _ => clearPix, live⟩

/-- Remaining pointer-move samples of a stroke, tracking the last
position like `lastPos.current`. -/
def runAux (t : ManualToolType) (st : BrushSettings K) :
    ComplexState K → K × K → List (K × K) → ComplexState K
  | cs, _, [] => cs
  | cs, prev, m :: ms => runAux t st (complexSample t st cs prev m) m ms

/-- A whole complex-tool stroke: pointer-down at `c0` (which snapshots
the buffers and immediately applies one sample with `prev = cur = c0`),
followed by pointer moves to each point of `moves`. -/
def runComplexStroke (t : ManualToolType) (st : BrushSettings K)
    (c0 : K × K) (moves : List (K × K)) (live0 : Surf) : ComplexState K :=
  runAux t st (complexSample t st (startComplex live0) c0 c0) c0 moves

/-- The successive segments drawn by the pointer-move samples after a
pointer-down at `prev`. -/
def segsFrom (prev : K × K) : List (K × K) → List ((K × K) × (K × K))
  | [] => []
  | m :: ms => (prev, m) :: segsFrom m ms

/-- All segments of a stroke, including the degenerate pointer-down
segment. -/
def strokeSegs (c0 : K × K) (moves : List (K × K)) : List ((K × K) × (K × K)) :=
  (c0, c0) :: segsFrom c0 moves

/-- Coverage of a point by at least one stroked segment: the union of the
capsules, which equals the union of the brush-radius disks centered at
the points of the stroke path. -/
def strokeCovers (w : K) (segs : List ((K × K) × (K × K))) (p : K × K) : Bool :=
  segs.any fun sg => capsuleCovers sg.1 sg.2 w p

/-- The value of the stroke-mask buffer determined by coverage alone. -/
def coverMask (col : Rgb) (w : K) (segs : List ((K × K) × (K × K))) : Surf :=
  fun ij => if strokeCovers w segs (pixCtr ij) then ⟨col, 1⟩ else clearPix

/-- The live surface the spec demands after each sample: the stroke-start
snapshot with the coverage-determined mask composited once under the
tool's blend mode and alpha. -/
def blendRecompose (t : ManualToolType) (st : BrushSettings K)
    (live0 : Surf) (segs : List ((K × K) × (K × K))) : Surf :=
  fun ij =>
    compositePix (toolBlendFn t) (toolBlendAlpha t) (live0 ij)
      (coverMask (toolStrokeColor t st) st.size segs ij)

/-! ### Per-point stamping tools and the pointer-move dispatch -/

/-- The body of the interpolation loop: which per-point operation a
sample applies.  Tools other than eraser, blur and pixelate fall through
the if-chain and stamp nothing. -/
def stampTool (t : ManualToolType) (st : BrushSettings K) (restore : Option Surf)
    (blurK : Surf → Surf) (w h : ℤ) (c : K × K) (s : Surf) : Surf :=
  if t = .eraser then applyEraser restore st.size c s
  else if t = .blur then applyBlurDisk (blurK s) st.size c s
  else if t = .pixelate then applyPixelate w h st.size st.intensity c s
  else s

/-- The interpolation loop applied to an explicit list of sample
centers. -/
def runStamps (t : ManualToolType) (st : BrushSettings K) (restore : Option Surf)
    (blurK : Surf → Surf) (w h : ℤ) (cs : List (K × K)) (s : Surf) : Surf :=
  cs.foldl (fun acc c => stampTool t st restore blurK w h c acc) s

/-- Which tools reach the interpolated stamping loop of `draw`: not a
complex tool, not the brush, not the censor. -/
def stampsPerPoint (t : ManualToolType) : Bool :=
  !isComplexTool t && !(t = .brush) && !(t = .censor)

/-- The interpolation step size, `max(1, size / 4)`. -/
def stepSize (size : K) : K := max 1 (size / 4)

/-- The sample positions of the interpolation loop
`for (i = 0; i <= dist; i += step)` with
`dist = hypot(dx, dy)`, `cx = prevX + cos(atan2(dy, dx)) * i`,
`cy = prevY + sin(atan2(dy, dx)) * i`.  `Math.hypot` and
`Math.atan2/cos/sin` are real-valued, so this lives over `ℝ`. -/
noncomputable def samplePositions (prev cur : ℝ × ℝ) (step : ℝ) : List (ℝ × ℝ) :=
  let dx := cur.1 - prev.1
  let dy := cur.2 - prev.2
  let dist := Real.sqrt (dx ^ 2 + dy ^ 2)
  let ang := Complex.arg ⟨dx, dy⟩
  (List.range (⌊dist / step⌋.toNat + 1)).map fun (k : ℕ) =>
    (prev.1 + Real.cos ang * (k * step), prev.2 + Real.sin ang * (k * step))

/-- One pointer-move sample of a non-complex tool, from the `else`
branch of `draw`: brush and censor stroke one segment directly; all
remaining tools run the interpolation loop with step `max(1, size/4)`,
stamping their per-point operation at each interpolated position. -/
noncomputable def drawSimple (t : ManualToolType) (st : BrushSettings ℝ)
    (restore : Option Surf) (blurK : Surf → Surf) (w h : ℤ)
    (prev cur : ℝ × ℝ) (s : Surf) : Surf :=
  if t = .brush then capsulePaint st.color st.size prev cur s
  else if t = .censor then censorPaint st.size prev cur s
  else runStamps t st restore blurK w h (samplePositions prev cur (stepSize st.size)) s

/-- A single tap: pointer-down at `c` records `c` as `lastPos` and
immediately runs one `draw` sample, whose previous and current positions
are therefore both `c`.  Complex tools take the two-buffer pipeline;
the rest take `drawSimple`.  The result is the live canvas. -/
noncomputable def tapStroke (t : ManualToolType) (st : BrushSettings ℝ)
    (restore : Option Surf) (blurK : Surf → Surf) (w h : ℤ)
    (c : ℝ × ℝ) (s : Surf) : Surf :=
  if isComplexTool t then (complexSample t st (startComplex s) c c).live
  else drawSimple t st restore blurK w h c c s

/-! ### The face-effect engine

Face effects draw into rotated, clipped frames, so this part is modelled
on an idealized continuous canvas: a pixel for every real point, with
exact sampling (no resampling interpolation). -/

/-- A continuous canvas. -/
abbrev FSurf : Type := (ℝ × ℝ) → Pix

/-- The face effects. -/
inductive FaceEffectType where
  | blurFace | pixelateFace | censorEyes
deriving DecidableEq, Repr

/-- A face bounding box in raster coordinates. -/
structure BoundingBox where
  originX : ℝ
  originY : ℝ
  width : ℝ
  height : ℝ

/-- A detected face: bounding box, eye landmarks (index 0 = right eye,
index 1 = left eye) and a confidence score. -/
structure FaceDetection where
  boundingBox : BoundingBox
  landmarks : List (ℝ × ℝ)
  probability : ℝ

/-- Derived face geometry. -/
structure FaceGeometry where
  centerX : ℝ
  centerY : ℝ
  width : ℝ
  height : ℝ
  angle : ℝ

/-- Math.atan2, via the argument of the complex number `x + y i`. -/
noncomputable def atan2 (y x : ℝ) : ℝ := Complex.arg ⟨x, y⟩

/-- getFaceGeometry: bounding-box center, bounding-box dimensions, and
the eye-line angle `atan2(leftEye.y - rightEye.y, leftEye.x - rightEye.x)`
when at least two landmarks exist, `0` otherwise. -/
noncomputable def getFaceGeometry (f : FaceDetection) : FaceGeometry :=
  let bb := f.boundingBox
  match f.landmarks with
  | p0 :: p1 :: _ =>
      ⟨bb.originX + bb.width / 2, bb.originY + bb.height / 2, bb.width, bb.height,
        atan2 (p1.2 - p0.2) (p1.1 - p0.1)⟩
  | _ =>
      ⟨bb.originX + bb.width / 2, bb.originY + bb.height / 2, bb.width, bb.height, 0⟩

/-- The face geometry exactly as the spec words it: centerX/centerY are
the bounding-box center, and rotationAngle is the atan2 of the vector
from the right-eye landmark (index 0) to the left-eye landmark (index 1)
when the landmark list has at least 2 entries, else exactly 0. -/
noncomputable def specFaceGeometry (f : FaceDetection) : FaceGeometry :=
  let bb := f.boundingBox
  { centerX := bb.originX + bb.width / 2
    centerY := bb.originY + bb.height / 2
    width := bb.width
    height := bb.height
    angle :=
      if 2 ≤ f.landmarks.length then
        atan2 ((f.landmarks.getD 1 (0, 0)).2 - (f.landmarks.getD 0 (0, 0)).2)
          ((f.landmarks.getD 1 (0, 0)).1 - (f.landmarks.getD 0 (0, 0)).1)
      else 0 }

/-- Rotation of a vector by angle `θ` (the matrix `ctx.rotate` applies). -/
noncomputable def rot2 (θ : ℝ) (p : ℝ × ℝ) : ℝ × ℝ :=
  (p.1 * Real.cos θ - p.2 * Real.sin θ, p.1 * Real.sin θ + p.2 * Real.cos θ)

/-- The region filled by the censor-eyes bar of one face: the frame is
translated to the face center and rotated to the face angle, and
`fillRect(-barWidth/2, eyeYOffset - barHeight/2, barWidth, barHeight)` is
filled there, with `barWidth = width * 1.0`, `barHeight = height * 0.25`
and `eyeYOffset = -height * 0.1`. -/
noncomputable def censorBarRegion (f : FaceDetection) : Set (ℝ × ℝ) :=
  let g := getFaceGeometry f
  let barWidth := g.width * 1
  let barHeight := g.height * (25 / 100)
  let eyeYOffset := -g.height * (1 / 10)
  (fun u => (g.centerX + (rot2 g.angle u).1, g.centerY + (rot2 g.angle u).2)) ''
    {u : ℝ × ℝ |
      -barWidth / 2 ≤ u.1 ∧ u.1 ≤ -barWidth / 2 + barWidth ∧
      eyeYOffset - barHeight / 2 ≤ u.2 ∧ u.2 ≤ eyeYOffset - barHeight / 2 + barHeight}

/-- The upright bounding-box capture of a face from the live canvas;
outside the `width × height` capture the temp canvas is transparent. -/
noncomputable def captureTex (s : FSurf) (f : FaceDetection) : FSurf :=
  open Classical in
  fun tc =>
    if 0 ≤ tc.1 ∧ tc.1 < f.boundingBox.width ∧ 0 ≤ tc.2 ∧ tc.2 < f.boundingBox.height
    then s (f.boundingBox.originX + tc.1, f.boundingBox.originY + tc.2)
    else clearPix

/-- The effect processing of the captured texture: whole-texture blur for
blur-face, block pixelation for pixelate-face (both platform primitives,
abstracted as the parameters `blurK` and `pixK`), and no processing for
any other effect. -/
def procTex (effect : FaceEffectType) (blurK pixK : FSurf → FSurf) (tex : FSurf) : FSurf :=
  if effect = .blurFace then blurK tex
  else if effect = .pixelateFace then pixK tex
  else tex

/-- The ellipse branch of applyFaceEffects: clip to the rotated ellipse
inscribed in the bounding box, capture the upright bounding box, process
it, and draw the processed texture centered in the rotated frame
(source-over). -/
noncomputable def ellipseBranch (effect : FaceEffectType) (blurK pixK : FSurf → FSurf)
    (f : FaceDetection) (s : FSurf) : FSurf :=
  open Classical in
  let g := getFaceGeometry f
  let ptex := procTex effect blurK pixK (captureTex s f)
  fun q =>
    let u := rot2 (-g.angle) (q.1 - g.centerX, q.2 - g.centerY)
    if u.1 ^ 2 * (g.height / 2) ^ 2 + u.2 ^ 2 * (g.width / 2) ^ 2 ≤
        (g.width / 2) ^ 2 * (g.height / 2) ^ 2
    then sourceOverPix (s q) (ptex (u.1 + g.width / 2, u.2 + g.height / 2))
    else s q

/-- Processing of one face: censor-eyes with at least two landmarks fills
the rotated bar with opaque black; every other case (including
censor-eyes with fewer than two landmarks) takes the ellipse branch. -/
noncomputable def perFaceEffect (effect : FaceEffectType) (blurK pixK : FSurf → FSurf)
    (f : FaceDetection) (s : FSurf) : FSurf :=
  open Classical in
  if effect = .censorEyes ∧ 2 ≤ f.landmarks.length then
    fun q => if q ∈ censorBarRegion f then ⟨⟨0, 0, 0⟩, 1⟩ else s q
  else ellipseBranch effect blurK pixK f s

/-- applyFaceEffects: every face of the batch is processed in order on
the live canvas, and one update is emitted at the end (the second
component counts the `onUpdate` calls of the batch). -/
noncomputable def applyFaceEffects (faces : List FaceDetection)
    (effect : FaceEffectType) (blurK pixK : FSurf → FSurf) (s : FSurf) :
    FSurf × ℕ :=
  (faces.foldl (fun acc f => perFaceEffect effect blurK pixK f acc) s, 1)

/-! ### The AI edit handler and the Gemini service wrapper -/

/-- The non-destructive display filters of the editor. -/
structure FilterState where
  brightness : ℚ
  contrast : ℚ
  saturation : ℚ
  grayscale : ℚ
  sepia : ℚ
  blurPx : ℚ
  rotationDeg : ℚ
deriving DecidableEq, Repr

/-- DEFAULT_FILTERS. -/
def DEFAULT_FILTERS : FilterState := ⟨100, 100, 100, 0, 0, 0, 0⟩

/-- The slice of the App state that handleAiEdit touches.  Images are
opaque encoded strings; the detected-face list and the isProcessing busy
flag (set and then cleared within the call) are omitted. -/
structure AiAppState where
  currentImage : Option String
  baseImage : Option String
  checkPointImage : Option String
  filters : FilterState
  aiPrompt : String
  errorMsg : Option String
  dailyUsage : ℕ
deriving DecidableEq, Repr

/-- DAILY_LIMIT. -/
def DAILY_LIMIT : ℕ := 250

/-- One part of a Gemini response: its inline image data, if any
(text parts carry none). -/
structure GenPart where
  inlineData : Option String
deriving DecidableEq, Repr

/-- A Gemini response as the service wrapper reads it:
`response.candidates?.[0]?.content?.parts`, which may be absent. -/
structure GenResponse where
  parts : Option (List GenPart)
deriving DecidableEq, Repr

/-- editImageWithPhotominiAI (services/geminiService): fails fast when the
API key is missing or empty; otherwise performs the network call
(modelled by its result `callResult`), and on success scans the response
parts for the first usable inline image, returning it as a data URL.
A response with no parts or with no usable image data is an error, and a
thrown service error is passed through (with a generic fallback when the
error carries no message). -/
def editImageWithPhotominiAI (apiKey : Option String)
    (callResult : Except String GenResponse) : Except String String :=
  if apiKey = none ∨ apiKey = some "" then
    Except.error "API Key is missing."
  else
    match callResult with
    | .error e => .error (if e = "" then "Failed to contact Photomini AI" else e)
    | .ok resp =>
        match resp.parts with
        | none => .error "No content generated"
        | some ps =>
            match ps.findSome? (fun p =>
                p.inlineData.bind fun d => if d = "" then none else some d) with
            | some d => .ok ("data:image/png;base64," ++ d)
            | none => .error "No image data found in response"

/-- The error message shown over the daily request limit. -/
def limitMsg : String :=
  "Daily limit of 250 requests reached. Please try again tomorrow."

/-- The message recorded for a failed AI edit: the thrown message when it
carries one, else the generic fallback (err.message fallback of the
catch block). -/
def aiEditErrMsg (e : String) : String :=
  if e = "" then "Failed to generate AI edit. Please try again." else e

/-- handleAiEdit: guard on a loaded image and a non-blank prompt, then on
the daily limit; flatten the base image through the filter bake (modelled
by its result `flattenResult`), call the AI service, and only on a usable
returned image commit it as the new base, checkpoint and current image,
resetting the filters and the prompt.  Any failure only records an error
message (the service message when present, else a generic one). -/
def handleAiEdit (st : AiAppState) (flattenResult : Except String String)
    (apiKey : Option String) (callService : String → Except String GenResponse) :
    AiAppState :=
  if st.baseImage = none ∨ st.aiPrompt.trim = "" then st
  else if DAILY_LIMIT ≤ st.dailyUsage then
    { st with errorMsg := some limitMsg }
  else
    match flattenResult with
    | .error e => { st with errorMsg := some (aiEditErrMsg e) }
    | .ok flat =>
        match editImageWithPhotominiAI apiKey (callService flat) with
        | .error e => { st with errorMsg := some (aiEditErrMsg e) }
        | .ok newImage =>
            { st with
                baseImage := some newImage
                checkPointImage := some newImage
                currentImage := some newImage
                filters := DEFAULT_FILTERS
                aiPrompt := ""
                errorMsg := none
                dailyUsage := st.dailyUsage + 1 }

/-! ### Claims -/

/-! ### Theorems -/

theorem sourceOverPix_fullAlpha (bd src : Pix) (h : src.a = 1) :
    sourceOverPix bd src = ⟨src.c, 1⟩ := by
  obtain ⟨⟨r, g, b⟩, a⟩ := src
  simp only [sourceOverPix, compositePix, normalB] at *
  subst h
  simp only [Pix.mk.injEq, Rgb.mk.injEq]
  refine ⟨⟨by ring, by ring, by ring⟩, by ring⟩

theorem compositePix_clear_src (B : Rgb → Rgb → Rgb) (ga : ℚ) (bd : Pix)
    (h : bd.a = 1) : compositePix B ga bd clearPix = bd := by
  obtain ⟨⟨r, g, b⟩, a⟩ := bd
  simp only [Pix.mk.injEq, Rgb.mk.injEq] at *
  subst h
  simp [compositePix, clearPix]

theorem compositePix_clear_both (B : Rgb → Rgb → Rgb) (ga : ℚ) (bd : Pix)
    (h : bd = clearPix) : compositePix B ga bd clearPix = clearPix := by
  subst h
  simp [compositePix, clearPix]

theorem Pix.eta_fullAlpha (p : Pix) (h : p.a = 1) : (⟨p.c, 1⟩ : Pix) = p := by
  cases p with | mk c a => cases h; rfl

theorem capsulePaint_coverMask (col : Rgb) (w : K) (a b : K × K)
    (segs : List ((K × K) × (K × K))) :
    capsulePaint col w a b (coverMask col w segs) =
      coverMask col w (segs ++ [(a, b)]) := by
  funext ij
  simp only [capsulePaint, coverMask, strokeCovers, List.any_append, List.any_cons,
    List.any_nil]
  rcases Bool.eq_false_or_eq_true (capsuleCovers a b w (pixCtr ij)) with hc | hc <;>
    rcases Bool.eq_false_or_eq_true
      (segs.any fun sg => capsuleCovers sg.1 sg.2 w (pixCtr ij)) with ha | ha <;>
    simp [ha, hc]

theorem complexSample_char (t : ManualToolType) (st : BrushSettings K)
    (live0 liveAny : Surf) (hop : ∀ ij, (live0 ij).a = 1)
    (segs : List ((K × K) × (K × K))) (a b : K × K) :
    complexSample t st
        ⟨live0, coverMask (toolStrokeColor t st) st.size segs, liveAny⟩ a b =
      ⟨live0, coverMask (toolStrokeColor t st) st.size (segs ++ [(a, b)]),
        blendRecompose t st live0 (segs ++ [(a, b)])⟩ := by
  simp only [complexSample, capsulePaint_coverMask]
  refine congrArg (ComplexState.mk _ _) ?_
  funext ij
  simp only [blendRecompose]
  rw [sourceOverPix_fullAlpha _ _ (hop ij), Pix.eta_fullAlpha _ (hop ij)]

theorem runAux_char (t : ManualToolType) (st : BrushSettings K)
    (live0 : Surf) (hop : ∀ ij, (live0 ij).a = 1) :
    ∀ (ms : List (K × K)) (prev : K × K) (segs : List ((K × K) × (K × K))),
      segs ≠ [] →
      runAux t st
          ⟨live0, coverMask (toolStrokeColor t st) st.size segs,
            blendRecompose t st live0 segs⟩ prev ms =
        ⟨live0, coverMask (toolStrokeColor t st) st.size (segs ++ segsFrom prev ms),
          blendRecompose t st live0 (segs ++ segsFrom prev ms)⟩ := by
  intro ms
  induction ms with
  | nil => intro prev segs _; simp [runAux, segsFrom]
  | cons m ms ih =>
      intro prev segs hne
      simp only [runAux, segsFrom]
      rw [complexSample_char t st live0 _ hop segs prev m, ih m (segs ++ [(prev, m)])
        (by simp)]
      simp

/-- Characterization of a whole complex stroke: the snapshot is the
pre-stroke surface, the mask is determined by segment coverage, and the
live surface is the one-shot recomposition of the snapshot with that
mask. Requires the pre-stroke surface to be fully opaque: the snapshot is
redrawn source-over onto the live canvas, which only replaces pixels
where the snapshot is opaque. -/
theorem runComplexStroke_char (t : ManualToolType) (st : BrushSettings K)
    (c0 : K × K) (moves : List (K × K)) (live0 : Surf)
    (hop : ∀ ij, (live0 ij).a = 1) :
    runComplexStroke t st c0 moves live0 =
      ⟨live0, coverMask (toolStrokeColor t st) st.size (strokeSegs c0 moves),
        blendRecompose t st live0 (strokeSegs c0 moves)⟩ := by
  have hstart : complexSample t st (startComplex live0) c0 c0 =
      ⟨live0, coverMask (toolStrokeColor t st) st.size [(c0, c0)],
        blendRecompose t st live0 [(c0, c0)]⟩ := by
    have hmask : capsulePaint (toolStrokeColor t st) st.size c0 c0
        (fun _ => clearPix) =
        coverMask (toolStrokeColor t st) st.size [(c0, c0)] := by
      funext ij
      simp [capsulePaint, coverMask, strokeCovers, capsuleCovers]
    simp only [complexSample, startComplex, hmask]
    refine congrArg (ComplexState.mk _ _) ?_
    funext ij
    rw [sourceOverPix_fullAlpha _ _ (hop ij), Pix.eta_fullAlpha _ (hop ij)]
    rfl
  rw [runComplexStroke, hstart,
    runAux_char t st live0 hop moves c0 [(c0, c0)] (by simp)]
  rfl

/-- Claim C7 (confirmed): for every FaceDetection, the derived face
geometry has centerX/centerY equal to the bounding-box center
(originX + width/2, originY + height/2), and rotationAngle equal to atan2
of the vector from the right-eye landmark (index 0) to the left-eye
landmark (index 1) when the landmark list has at least 2 entries, and
exactly 0 otherwise. -/
theorem c7_face_geometry_matches_spec (f : FaceDetection) :
    getFaceGeometry f = specFaceGeometry f := by
  rcases f with ⟨bb, ls, pr⟩
  match ls with
  | [] => simp [getFaceGeometry, specFaceGeometry]
  | [p] => simp [getFaceGeometry, specFaceGeometry]
  | p0 :: p1 :: rest => simp [getFaceGeometry, specFaceGeometry]

/-- Claim C9 (confirmed): every AI-edit invocation that fails (service
error, no usable image returned, or missing configuration) leaves the
raster state unchanged: base image, checkpoint image, current image and
filters keep their pre-call values, and the images are replaced only when
the service call returns a usable image (in which case base, checkpoint
and current all become that image). -/
theorem c9_ai_edit_failure_preserves_raster (st : AiAppState)
    (flattenResult : Except String String) (apiKey : Option String)
    (callService : String → Except String GenResponse) :
    (((∃ e, flattenResult = Except.error e) ∨
        (∃ flat e, flattenResult = Except.ok flat ∧
          editImageWithPhotominiAI apiKey (callService flat) = Except.error e)) →
      (handleAiEdit st flattenResult apiKey callService).baseImage = st.baseImage ∧
      (handleAiEdit st flattenResult apiKey callService).checkPointImage =
        st.checkPointImage ∧
      (handleAiEdit st flattenResult apiKey callService).currentImage =
        st.currentImage ∧
      (handleAiEdit st flattenResult apiKey callService).filters = st.filters) ∧
    ((handleAiEdit st flattenResult apiKey callService).baseImage ≠ st.baseImage →
      ∃ flat img, flattenResult = Except.ok flat ∧
        editImageWithPhotominiAI apiKey (callService flat) = Except.ok img ∧
        handleAiEdit st flattenResult apiKey callService =
          ⟨some img, some img, some img, DEFAULT_FILTERS, "", none,
            st.dailyUsage + 1⟩) := by
  unfold handleAiEdit
  by_cases hg1 : st.baseImage = none ∨ st.aiPrompt.trim = ""
  · simp only [if_pos hg1]
    exact ⟨fun _ => by simp, fun hne => absurd rfl hne⟩
  · simp only [if_neg hg1]
    by_cases hg2 : DAILY_LIMIT ≤ st.dailyUsage
    · simp only [if_pos hg2]
      exact ⟨fun _ => by simp, fun hne => absurd rfl hne⟩
    · simp only [if_neg hg2]
      rcases hflat : flattenResult with e | flat
      · exact ⟨fun _ => by simp, fun hne => absurd rfl hne⟩
      · rcases hedit : editImageWithPhotominiAI apiKey (callService flat)
          with e | img
        · simp only [hedit]
          exact ⟨fun _ => by simp, fun hne => absurd rfl hne⟩
        · simp only [hedit]
          refine ⟨?_, fun _ => ⟨flat, img, rfl, hedit, rfl⟩⟩
          rintro (⟨e, he⟩ | ⟨flat2, e, hf, he⟩)
          · exact absurd he (by simp)
          · obtain rfl : flat2 = flat := (Except.ok.injEq _ _ ▸ hf).symm
            rw [hedit] at he
            exact absurd he (by simp)

/-- Witness for C9 at a concrete failing call: the flatten step fails
with message "boom" and the raster fields are untouched. -/
theorem c9_witness :
    ((∃ e, (Except.error "boom" : Except String String) = Except.error e) ∨
      (∃ flat e, (Except.error "boom" : Except String String) = Except.ok flat ∧
        editImageWithPhotominiAI none ((fun _ => Except.error "") flat) =
          Except.error e)) ∧
    (handleAiEdit
        ⟨some "img", some "img", some "img", DEFAULT_FILTERS, "x", none, 0⟩
        (Except.error "boom") none (fun _ => Except.error "")).baseImage =
      (⟨some "img", some "img", some "img", DEFAULT_FILTERS, "x", none, 0⟩ :
        AiAppState).baseImage := by
  refine ⟨Or.inl ⟨"boom", rfl⟩, ?_⟩
  exact ((c9_ai_edit_failure_preserves_raster
    ⟨some "img", some "img", some "img", DEFAULT_FILTERS, "x", none, 0⟩
    (Except.error "boom") none (fun _ => Except.error "")).1
    (Or.inl ⟨"boom", rfl⟩)).1

/-- Canonical pixels absorb a fully transparent source under
source-over. -/
theorem sourceOverPix_clear_of_canonical (p : Pix) (h : p.canonical) :
    sourceOverPix p clearPix = p := by
  rcases h with h | h
  · exact compositePix_clear_src normalB 1 p h
  · exact h ▸ compositePix_clear_both normalB 1 clearPix rfl

/-- Claim C3 (corrected): per eraser sample point, with a checkpoint the
eraser clips the disk of radius size/2 and draws the checkpoint into it
(source-over), so wherever the checkpoint is fully opaque — in
particular over a never-edited region of an opaque checkpoint — the
result is bit-identical to the checkpoint inside the disk; pixels
outside the disk are untouched.  Without a checkpoint it alpha-erases
with destination-out, zeroing the alpha inside the disk and leaving the
outside unchanged.  (The original claim fails for non-opaque checkpoint
pixels, which are composited over the live surface instead of replacing
it; see the counterexample.) -/
theorem c3_eraser_restores_checkpoint (ckpt : Surf) (size : K) (c : K × K)
    (s : Surf) (hop : ∀ ij, (ckpt ij).a = 1) :
    (∀ ij, inDisk c (size / 2) (pixCtr ij) = true →
      applyEraser (some ckpt) size c s ij = ckpt ij) ∧
    (∀ ij, inDisk c (size / 2) (pixCtr ij) = false →
      applyEraser (some ckpt) size c s ij = s ij) ∧
    (∀ ij, inDisk c (size / 2) (pixCtr ij) = true →
      applyEraser none size c s ij = ⟨(s ij).c, 0⟩) ∧
    (∀ ij, inDisk c (size / 2) (pixCtr ij) = false →
      applyEraser none size c s ij = s ij) := by
  refine ⟨fun ij hin => ?_, fun ij hout => ?_, fun ij hin => ?_, fun ij hout => ?_⟩
  · simp only [applyEraser, hin, if_true]
    rw [sourceOverPix_fullAlpha _ _ (hop ij), Pix.eta_fullAlpha _ (hop ij)]
  · simp [applyEraser, hout]
  · simp [applyEraser, hin, destOutPix]
  · simp [applyEraser, hout]

/-- Witness for C3: a concrete opaque white checkpoint of size 2 at the
origin; inside the disk the pixel becomes the checkpoint pixel. -/
theorem c3_witness :
    (∀ ij : ℤ × ℤ, ((fun _ => (⟨⟨1, 1, 1⟩, 1⟩ : Pix)) ij).a = 1) ∧
    (∀ ij, inDisk ((0 : ℚ), (0 : ℚ)) ((2 : ℚ) / 2) (pixCtr ij) = true →
      applyEraser (some fun _ => (⟨⟨1, 1, 1⟩, 1⟩ : Pix)) (2 : ℚ) (0, 0)
        (fun _ => (⟨⟨0, 0, 0⟩, 1⟩ : Pix)) ij = (⟨⟨1, 1, 1⟩, 1⟩ : Pix)) := by
  refine ⟨fun _ => rfl, fun ij hin => ?_⟩
  exact (c3_eraser_restores_checkpoint (fun _ => (⟨⟨1, 1, 1⟩, 1⟩ : Pix)) 2 (0, 0)
    (fun _ => (⟨⟨0, 0, 0⟩, 1⟩ : Pix)) (fun _ => rfl)).1 ij hin

/-- Counterexample for C3 as stated: a half-transparent checkpoint over a
never-edited region (the live surface equals the checkpoint) is not
restored bit-identically — drawImage composites the checkpoint over the
live pixels, densifying the alpha from 1/2 to 3/4. -/
theorem c3_counterexample :
    applyEraser (K := ℚ) (some fun _ => (⟨⟨1, 1, 1⟩, 1/2⟩ : Pix)) 2 (0, 0)
        (fun _ => (⟨⟨1, 1, 1⟩, 1/2⟩ : Pix)) (0, 0) =
      (⟨⟨1, 1, 1⟩, 3/4⟩ : Pix) ∧
    (⟨⟨1, 1, 1⟩, 3/4⟩ : Pix) ≠ (⟨⟨1, 1, 1⟩, 1/2⟩ : Pix) := by
  constructor
  · have hin : inDisk ((0 : ℚ), (0 : ℚ)) ((2 : ℚ) / 2) (pixCtr (0, 0)) = true := by
      simp only [inDisk, distSq, pixCtr, decide_eq_true_eq]
      norm_num
    simp only [applyEraser, hin, if_true, sourceOverPix, compositePix, normalB]
    simp only [Pix.mk.injEq, Rgb.mk.injEq]
    norm_num
  · simp only [ne_eq, Pix.mk.injEq, Rgb.mk.injEq, not_and]
    intro _
    norm_num

theorem pixCellStep_untouched (w h : ℤ) (size intensity : K) (c : K × K)
    (orig acc : Surf) (cell : K × K) (ij : ℤ × ℤ)
    (hn : ¬(pixCellInRadius size intensity c cell = true ∧
            pixCellInBounds w h size intensity c cell = true ∧
            cellRectCovers w h (pixPs intensity) cell ij)) :
    pixCellStep w h size intensity c orig acc cell ij = acc ij := by
  unfold pixCellStep
  by_cases hcond : pixCellInRadius size intensity c cell = true ∧
      pixCellInBounds w h size intensity c cell = true
  · rw [if_pos hcond]
    unfold fillRectOp
    rw [if_neg fun hcov => hn ⟨hcond.1, hcond.2, hcov⟩]
  · rw [if_neg hcond]

theorem pixFold_untouched (w h : ℤ) (size intensity : K) (c : K × K)
    (orig : Surf) (ij : ℤ × ℤ) :
    ∀ (cells : List (K × K)) (acc : Surf),
      (∀ cell ∈ cells, ¬(pixCellInRadius size intensity c cell = true ∧
          pixCellInBounds w h size intensity c cell = true ∧
          cellRectCovers w h (pixPs intensity) cell ij)) →
      cells.foldl (pixCellStep w h size intensity c orig) acc ij = acc ij := by
  intro cells
  induction cells with
  | nil => intro acc _; rfl
  | cons cell rest ih =>
      intro acc hall
      simp only [List.foldl_cons]
      rw [ih _ fun c2 hc2 => hall c2 (List.mem_cons_of_mem _ hc2)]
      exact pixCellStep_untouched w h size intensity c orig acc cell ij
        (hall cell (List.mem_cons_self _ _))

theorem pixFold_filled (w h : ℤ) (size intensity : K) (c : K × K)
    (orig : Surf) (ij : ℤ × ℤ) (cell : K × K)
    (hrad : pixCellInRadius size intensity c cell = true)
    (hbnd : pixCellInBounds w h size intensity c cell = true) :
    ∀ (cells : List (K × K)) (acc : Surf),
      (∀ c2 ∈ cells, c2 = cell ∨ ¬ cellRectCovers w h (pixPs intensity) c2 ij) →
      acc ij = ⟨pixCellColor intensity orig cell, 1⟩ →
      cells.foldl (pixCellStep w h size intensity c orig) acc ij =
        ⟨pixCellColor intensity orig cell, 1⟩ := by
  intro cells
  induction cells with
  | nil => intro acc _ hacc; exact hacc
  | cons c2 rest ih =>
      intro acc hall hacc
      simp only [List.foldl_cons]
      refine ih _ (fun c3 hc3 => hall c3 (List.mem_cons_of_mem _ hc3)) ?_
      rcases hall c2 (List.mem_cons_self _ _) with rfl | hnc
      · unfold pixCellStep
        rw [if_pos ⟨hrad, hbnd⟩]
        unfold fillRectOp
        by_cases hcov : cellRectCovers w h (pixPs intensity) (c2.1, c2.2) ij
        · rw [if_pos hcov]
        · rw [if_neg hcov]; exact hacc
      · rw [pixCellStep_untouched w h size intensity c orig acc c2 ij
          fun hx => hnc hx.2.2]
        exact hacc

theorem pixCells_mem_shape (w h : ℤ) (size intensity : K) (c : K × K)
    (cell : K × K) (hmem : cell ∈ pixCells w h size intensity c) :
    ∃ n m : ℕ, n < pixNX w size intensity c ∧ m < pixNY h size intensity c ∧
      cell = (pixGridX size intensity c + (n : K) * pixPs intensity,
              pixGridY size intensity c + (m : K) * pixPs intensity) := by
  unfold pixCells at hmem
  rw [List.mem_flatMap] at hmem
  obtain ⟨m, hm, hcell⟩ := hmem
  rw [List.mem_map] at hcell
  obtain ⟨n, hn, hcell⟩ := hcell
  exact ⟨n, m, List.mem_range.mp hn, List.mem_range.mp hm, hcell.symm⟩

theorem gridIndex_unique (g ps x : K) (hps : 0 < ps) (n n2 : ℕ)
    (h1 : g + (n : K) * ps ≤ x) (h2 : x < g + (n : K) * ps + ps)
    (h3 : g + (n2 : K) * ps ≤ x) (h4 : x < g + (n2 : K) * ps + ps) :
    n = n2 := by
  rcases lt_trichotomy n n2 with hlt | heq | hgt
  · exfalso
    have hle : ((n : K) + 1) * ps ≤ (n2 : K) * ps := by
      have : ((n + 1 : ℕ) : K) ≤ (n2 : K) := Nat.cast_le.mpr hlt
      push_cast at this
      exact mul_le_mul_of_nonneg_right this hps.le
    nlinarith
  · exact heq
  · exfalso
    have hle : ((n2 : K) + 1) * ps ≤ (n : K) * ps := by
      have : ((n2 + 1 : ℕ) : K) ≤ (n : K) := Nat.cast_le.mpr hgt
      push_cast at this
      exact mul_le_mul_of_nonneg_right this hps.le
    nlinarith

/-- Two visited grid cells covering the same pixel are the same cell. -/
theorem pixCells_cover_unique (w h : ℤ) (size intensity : K) (c : K × K)
    (cell cell2 : K × K) (ij : ℤ × ℤ)
    (hm : cell ∈ pixCells w h size intensity c)
    (hm2 : cell2 ∈ pixCells w h size intensity c)
    (hcov : cellRectCovers w h (pixPs intensity) cell ij)
    (hcov2 : cellRectCovers w h (pixPs intensity) cell2 ij) :
    cell2 = cell := by
  have hps : (0 : K) < pixPs intensity :=
    lt_of_lt_of_le (by norm_num) (le_max_left 2 intensity)
  obtain ⟨n, m, _, _, rfl⟩ := pixCells_mem_shape w h size intensity c cell hm
  obtain ⟨n2, m2, _, _, rfl⟩ := pixCells_mem_shape w h size intensity c cell2 hm2
  obtain ⟨-, -, -, -, hx1, hx2, hy1, hy2⟩ := hcov
  obtain ⟨-, -, -, -, hx3, hx4, hy3, hy4⟩ := hcov2
  have hn : n2 = n :=
    gridIndex_unique _ (pixPs intensity) _ hps n2 n hx3 hx4 hx1 hx2
  have hm' : m2 = m :=
    gridIndex_unique _ (pixPs intensity) _ hps m2 m hy3 hy4 hy1 hy2
  rw [hn, hm']

/-- Pointwise behavior of applyPixelate when the clamped capture region
is nonempty: a visited cell passing the radius and bounds tests paints
every canvas pixel it covers with the captured pixel at its floored
center. -/
theorem applyPixelate_fills (w h : ℤ) (size intensity : K) (c : K × K)
    (s : Surf)
    (hguard : ¬(pixEndX w size c - pixStartX size c ≤ 0 ∨
                pixEndY h size c - pixStartY size c ≤ 0))
    (cell : K × K) (hmem : cell ∈ pixCells w h size intensity c)
    (hrad : pixCellInRadius size intensity c cell = true)
    (hbnd : pixCellInBounds w h size intensity c cell = true)
    (ij : ℤ × ℤ) (hcov : cellRectCovers w h (pixPs intensity) cell ij) :
    applyPixelate w h size intensity c s ij =
      ⟨pixCellColor intensity s cell, 1⟩ := by
  unfold applyPixelate
  rw [if_neg hguard]
  obtain ⟨l1, l2, hsplit⟩ := List.append_of_mem hmem
  rw [hsplit, List.foldl_append, List.foldl_cons]
  refine pixFold_filled w h size intensity c s ij cell hrad hbnd l2 _ ?_ ?_
  · intro c2 hc2
    by_cases hcov2 : cellRectCovers w h (pixPs intensity) c2 ij
    · exact Or.inl (pixCells_cover_unique w h size intensity c cell c2 ij hmem
        (by rw [hsplit]; exact List.mem_append_right _ (List.mem_cons_of_mem _ hc2))
        hcov hcov2)
    · exact Or.inr hcov2
  · unfold pixCellStep
    rw [if_pos ⟨hrad, hbnd⟩]
    unfold fillRectOp
    rw [if_pos hcov]

/-- Pointwise behavior of applyPixelate at a pixel not painted by any
visited cell passing both tests: the pixel keeps its value. -/
theorem applyPixelate_untouched (w h : ℤ) (size intensity : K) (c : K × K)
    (s : Surf) (ij : ℤ × ℤ)
    (hno : ∀ cell ∈ pixCells w h size intensity c,
      ¬(pixCellInRadius size intensity c cell = true ∧
        pixCellInBounds w h size intensity c cell = true ∧
        cellRectCovers w h (pixPs intensity) cell ij)) :
    applyPixelate w h size intensity c s ij = s ij := by
  unfold applyPixelate
  by_cases hguard : pixEndX w size c - pixStartX size c ≤ 0 ∨
      pixEndY h size c - pixStartY size c ≤ 0
  · rw [if_pos hguard]
  · rw [if_neg hguard]
    exact pixFold_untouched w h size intensity c s ij _ s hno

/-- Claim C5 (corrected): per pixelate sample point, the sampling grid is
snapped to block boundaries of side `pixelSize = max(2, intensity)`
(grid-aligned, not brush-aligned), and every visited grid cell whose
center lies within the brush radius of the sample point AND whose floored
center indexes into the clamped captured region is filled entirely (on
canvas) with the captured pixel at the floored cell center; every cell
whose center lies outside the brush radius is left untouched.  (The
original claim omits the bounds test: a cell whose center is within the
brush radius can still be skipped when its floored center falls outside
the clamped capture region; see the counterexample.) -/
theorem c5_pixelate_grid_fill (w h : ℤ) (size intensity : K) (c : K × K)
    (s : Surf)
    (hguard : ¬(pixEndX w size c - pixStartX size c ≤ 0 ∨
                pixEndY h size c - pixStartY size c ≤ 0)) :
    (∀ cell ∈ pixCells w h size intensity c,
      pixCellInRadius size intensity c cell = true →
      pixCellInBounds w h size intensity c cell = true →
      ∀ ij, cellRectCovers w h (pixPs intensity) cell ij →
        applyPixelate w h size intensity c s ij =
          ⟨pixCellColor intensity s cell, 1⟩) ∧
    (∀ ij (cell : K × K), cell ∈ pixCells w h size intensity c →
      cellRectCovers w h (pixPs intensity) cell ij →
      pixCellInRadius size intensity c cell = false →
      applyPixelate w h size intensity c s ij = s ij) ∧
    (∀ ij, (∀ cell ∈ pixCells w h size intensity c,
        ¬ cellRectCovers w h (pixPs intensity) cell ij) →
      applyPixelate w h size intensity c s ij = s ij) := by
  refine ⟨?_, ?_, ?_⟩
  · intro cell hmem hrad hbnd ij hcov
    exact applyPixelate_fills w h size intensity c s hguard cell hmem hrad hbnd ij hcov
  · intro ij cell hmem hcov hrad
    refine applyPixelate_untouched w h size intensity c s ij ?_
    intro cell2 hmem2
    rintro ⟨hrad2, -, hcov2⟩
    have : cell2 = cell :=
      pixCells_cover_unique w h size intensity c cell cell2 ij hmem hmem2 hcov hcov2
    rw [this] at hrad2
    rw [hrad] at hrad2
    exact Bool.false_ne_true hrad2
  · intro ij hno
    exact applyPixelate_untouched w h size intensity c s ij
      fun cell hmem h => hno cell hmem h.2.2

/-- Witness for C5 on a 16 by 16 canvas with size 8, intensity 8 and
sample point (2, 2): the clamped capture region is nonempty. -/
theorem c5_witness :
    (¬(pixEndX 16 (8:ℚ) ((2:ℚ), 2) - pixStartX (8:ℚ) ((2:ℚ), 2) ≤ 0 ∨
       pixEndY 16 (8:ℚ) ((2:ℚ), 2) - pixStartY (8:ℚ) ((2:ℚ), 2) ≤ 0)) ∧
    (∀ ij, (∀ cell ∈ pixCells 16 16 (8:ℚ) 8 ((2:ℚ), 2),
        ¬ cellRectCovers 16 16 (pixPs (8:ℚ)) cell ij) →
      applyPixelate 16 16 (8:ℚ) 8 ((2:ℚ), 2)
        (fun _ => (⟨⟨1, 1, 1⟩, 1⟩ : Pix)) ij =
        (fun _ => (⟨⟨1, 1, 1⟩, 1⟩ : Pix)) ij) := by
  have hguard : ¬(pixEndX 16 (8:ℚ) ((2:ℚ), 2) - pixStartX (8:ℚ) ((2:ℚ), 2) ≤ 0 ∨
      pixEndY 16 (8:ℚ) ((2:ℚ), 2) - pixStartY (8:ℚ) ((2:ℚ), 2) ≤ 0) := by
    norm_num [pixEndX, pixEndY, pixStartX, pixStartY]
  exact ⟨hguard, (c5_pixelate_grid_fill 16 16 (8:ℚ) 8 ((2:ℚ), 2)
    (fun _ => (⟨⟨1, 1, 1⟩, 1⟩ : Pix)) hguard).2.2⟩

/-- Counterexample for C5 as stated: on a 12 by 12 canvas with size 8,
intensity 4 and sample point (2, 6), the visited grid cell at (4, 4) has
its center (6, 6) exactly within the brush radius (distance 4 = size/2,
which the code does not skip), yet the cell is not filled: the floored
center indexes outside the clamped capture region, so the bounds test
skips it and pixel (5, 5) inside the cell keeps its old color instead of
the flat color sampled at the cell center. -/
theorem c5_counterexample :
    ((4:ℚ), (4:ℚ)) ∈ pixCells 12 12 (8:ℚ) 4 ((2:ℚ), 6) ∧
    pixCellInRadius (8:ℚ) 4 ((2:ℚ), 6) (4, 4) = true ∧
    cellRectCovers 12 12 (pixPs (4:ℚ)) ((4:ℚ), 4) (5, 5) ∧
    applyPixelate 12 12 (8:ℚ) 4 ((2:ℚ), 6)
        (fun ij => if ij = (6, 6) then (⟨⟨0, 0, 0⟩, 1⟩ : Pix) else ⟨⟨1, 1, 1⟩, 1⟩)
        (5, 5) =
      (⟨⟨1, 1, 1⟩, 1⟩ : Pix) ∧
    (⟨⟨1, 1, 1⟩, 1⟩ : Pix) ≠
      ⟨pixCellColor (4:ℚ)
        (fun ij => if ij = (6, 6) then (⟨⟨0, 0, 0⟩, 1⟩ : Pix) else ⟨⟨1, 1, 1⟩, 1⟩)
        ((4:ℚ), 4), 1⟩ := by
  have hps : pixPs (4:ℚ) = 4 := by norm_num [pixPs]
  have hsx : pixStartX (8:ℚ) ((2:ℚ), 6) = 0 := by norm_num [pixStartX]
  have hsy : pixStartY (8:ℚ) ((2:ℚ), 6) = 2 := by norm_num [pixStartY]
  have hex : pixEndX 12 (8:ℚ) ((2:ℚ), 6) = 6 := by norm_num [pixEndX]
  have hey : pixEndY 12 (8:ℚ) ((2:ℚ), 6) = 10 := by norm_num [pixEndY]
  have hgx : pixGridX (8:ℚ) 4 ((2:ℚ), 6) = 0 := by
    rw [pixGridX, hsx, hps]
    norm_num
  have hgy : pixGridY (8:ℚ) 4 ((2:ℚ), 6) = 0 := by
    rw [pixGridY, hsy, hps]
    norm_num
  have hnx : pixNX 12 (8:ℚ) 4 ((2:ℚ), 6) = 2 := by
    rw [pixNX, hex, hgx, hps]
    have : (⌈(((6:ℤ) : ℚ) - 0) / 4⌉ : ℤ) = 2 := by
      rw [Int.ceil_eq_iff]
      norm_num
    rw [this]
    rfl
  have hny : pixNY 12 (8:ℚ) 4 ((2:ℚ), 6) = 3 := by
    rw [pixNY, hey, hgy, hps]
    have : (⌈(((10:ℤ) : ℚ) - 0) / 4⌉ : ℤ) = 3 := by
      rw [Int.ceil_eq_iff]
      norm_num
    rw [this]
    rfl
  have hrad : pixCellInRadius (8:ℚ) 4 ((2:ℚ), 6) (4, 4) = true := by
    simp only [pixCellInRadius, inDisk, distSq, hps, decide_eq_true_eq]
    norm_num
  have hbnd : pixCellInBounds 12 12 (8:ℚ) 4 ((2:ℚ), 6) ((4:ℚ), 4) = false := by
    simp only [pixCellInBounds, hps, hsx, hsy, hex, hey,
      decide_eq_false_iff_not]
    intro hcon
    have h6 : (⌊(4:ℚ) + 4 / 2⌋ : ℤ) = 6 := by norm_num
    rw [h6] at hcon
    omega
  have hcov : cellRectCovers 12 12 (pixPs (4:ℚ)) ((4:ℚ), 4) (5, 5) := by
    rw [hps]
    unfold cellRectCovers
    norm_num
  have hmem : ((4:ℚ), (4:ℚ)) ∈ pixCells 12 12 (8:ℚ) 4 ((2:ℚ), 6) := by
    unfold pixCells
    rw [List.mem_flatMap]
    refine ⟨1, ?_, ?_⟩
    · rw [List.mem_range, hny]
      norm_num
    · rw [List.mem_map]
      refine ⟨1, ?_, ?_⟩
      · rw [List.mem_range, hnx]
        norm_num
      · rw [hgx, hgy, hps]
        norm_num
  refine ⟨hmem, hrad, hcov, ?_, ?_⟩
  · refine applyPixelate_untouched 12 12 (8:ℚ) 4 ((2:ℚ), 6) _ (5, 5) ?_
    intro cell hmemc
    obtain ⟨n, m, hn, hm, rfl⟩ :=
      pixCells_mem_shape 12 12 (8:ℚ) 4 ((2:ℚ), 6) cell hmemc
    rw [hnx] at hn
    rw [hny] at hm
    rw [hgx, hgy, hps]
    interval_cases n <;> interval_cases m <;> rintro ⟨hr, hb, hc⟩
    · norm_num [cellRectCovers] at hc
    · norm_num [cellRectCovers] at hc
    · norm_num [cellRectCovers] at hc
    · norm_num [cellRectCovers] at hc
    · rw [show ((0:ℚ) + (1 : ℕ) * 4, (0:ℚ) + (1 : ℕ) * 4) = ((4:ℚ), (4:ℚ)) by
        norm_num] at hb
      rw [hbnd] at hb
      exact Bool.false_ne_true hb
    · norm_num [cellRectCovers] at hc
  · have h6 : ((⌊(4:ℚ) + pixPs (4:ℚ) / 2⌋ : ℤ), (⌊(4:ℚ) + pixPs (4:ℚ) / 2⌋ : ℤ)) =
        ((6:ℤ), (6:ℤ)) := by
      rw [hps]
      norm_num
    simp only [pixCellColor, h6]
    norm_num [storedRgb, Pix.mk.injEq, Rgb.mk.injEq]

theorem distSq_segLerp_eval (a b p : K × K) (t : K) :
    distSq p (segLerp a b t) =
      ((b.1 - a.1) ^ 2 + (b.2 - a.2) ^ 2) * t ^ 2 -
        2 * ((p.1 - a.1) * (b.1 - a.1) + (p.2 - a.2) * (b.2 - a.2)) * t +
        distSq p a := by
  simp only [distSq, segLerp]
  ring

theorem closestT_eq (a b p : K × K) :
    closestT a b p =
      if (b.1 - a.1) ^ 2 + (b.2 - a.2) ^ 2 = 0 then 0
      else min 1 (max 0
        (((p.1 - a.1) * (b.1 - a.1) + (p.2 - a.2) * (b.2 - a.2)) /
          ((b.1 - a.1) ^ 2 + (b.2 - a.2) ^ 2))) := rfl

/-- The clamped projection parameter minimizes the distance to the
segment over `[0, 1]`: the capsule really is the union of the disks
centered at the segment points. -/
theorem distSqToSeg_min (a b p : K × K) (t : K) (h0 : 0 ≤ t) (h1 : t ≤ 1) :
    distSqToSeg a b p ≤ distSq p (segLerp a b t) := by
  have hts : distSqToSeg a b p = distSq p (segLerp a b (closestT a b p)) := rfl
  rw [hts, distSq_segLerp_eval, distSq_segLerp_eval, closestT_eq]
  by_cases hlen : (b.1 - a.1) ^ 2 + (b.2 - a.2) ^ 2 = 0
  · rw [if_pos hlen]
    have hb1 : b.1 - a.1 = 0 := by
      nlinarith [sq_nonneg (b.1 - a.1), sq_nonneg (b.2 - a.2)]
    have hb2 : b.2 - a.2 = 0 := by
      nlinarith [sq_nonneg (b.1 - a.1), sq_nonneg (b.2 - a.2)]
    rw [hb1, hb2]
    ring_nf
    exact le_refl _
  · rw [if_neg hlen]
    have hpos : 0 < (b.1 - a.1) ^ 2 + (b.2 - a.2) ^ 2 :=
      lt_of_le_of_ne (by positivity) (Ne.symm hlen)
    set L := (b.1 - a.1) ^ 2 + (b.2 - a.2) ^ 2 with hLdef
    set num := (p.1 - a.1) * (b.1 - a.1) + (p.2 - a.2) * (b.2 - a.2) with hNdef
    rcases le_or_lt (num / L) 0 with ht0 | ht0
    · rw [max_eq_left ht0, min_eq_right (by norm_num : (0 : K) ≤ 1)]
      have hnum_le : num ≤ 0 := by
        have hm := mul_le_mul_of_nonneg_right ht0 hpos.le
        rw [div_mul_cancel₀ _ hlen, zero_mul] at hm
        exact hm
      nlinarith
    · rcases le_or_lt (num / L) 1 with ht1 | ht1
      · rw [max_eq_right ht0.le, min_eq_right ht1]
        have hid : L * t ^ 2 - 2 * num * t -
            (L * (num / L) ^ 2 - 2 * num * (num / L)) =
            (L * t - num) ^ 2 / L := by
          field_simp
          ring
        have hkey : 0 ≤ (L * t - num) ^ 2 / L := by positivity
        linarith
      · rw [max_eq_right ht0.le, min_eq_left ht1.le]
        have hnum_gt : L < num := (one_lt_div hpos).mp ht1
        have f1 : 0 ≤ 1 - t := by linarith
        have f2 : 0 ≤ 2 * num - L * (t + 1) := by
          have h2 : L * (t + 1) ≤ L * 2 :=
            mul_le_mul_of_nonneg_left (by linarith) hpos.le
          linarith
        have hprod : 0 ≤ (1 - t) * (2 * num - L * (t + 1)) := mul_nonneg f1 f2
        have hexp : (1 - t) * (2 * num - L * (t + 1)) =
            L * t ^ 2 - 2 * num * t - (L * 1 ^ 2 - 2 * num * 1) := by ring
        rw [hexp] at hprod
        linarith

/-- One stroked segment, read as the union of brush-radius disks along
the segment path. -/
theorem capsuleCovers_iff_disks (a b : K × K) (wd : K) (p : K × K) :
    capsuleCovers a b wd p = true ↔
      (a ≠ b ∧ ∃ t, 0 ≤ t ∧ t ≤ 1 ∧
        distSq p (segLerp a b t) ≤ (wd / 2) ^ 2) := by
  unfold capsuleCovers
  by_cases hab : a = b
  · simp [hab]
  · rw [if_neg hab]
    simp only [decide_eq_true_eq]
    constructor
    · intro hle
      refine ⟨hab, closestT a b p, ?_, ?_, hle⟩
      · rw [closestT_eq]
        split
        · exact le_refl 0
        · exact le_min (by norm_num) (le_max_left 0 _)
      · rw [closestT_eq]
        split
        · norm_num
        · exact min_le_left 1 _
    · rintro ⟨-, t, h0, h1, hle⟩
      exact le_trans (distSqToSeg_min a b p t h0 h1) hle

theorem runStamps_untouched (t : ManualToolType) (st : BrushSettings K)
    (restore : Option Surf) (blurK : Surf → Surf) (w h : ℤ) (ij : ℤ × ℤ) :
    ∀ (centers : List (K × K)) (s : Surf),
      (∀ (cc : K × K) (acc : Surf), cc ∈ centers →
        stampTool t st restore blurK w h cc acc ij = acc ij) →
      runStamps t st restore blurK w h centers s ij = s ij := by
  intro centers
  induction centers with
  | nil => intro s _; rfl
  | cons cc rest ih =>
      intro s hall
      show runStamps t st restore blurK w h rest
        (stampTool t st restore blurK w h cc s) ij = s ij
      rw [ih _ fun c2 acc h2 => hall c2 acc (List.mem_cons_of_mem _ h2)]
      exact hall cc s (List.mem_cons_self _ _)

/-- Claim C2 (corrected): stroke containment.  For the blend-mode tools
no pixel outside the union of the stroked capsules — that is, outside
the union of the brush-radius disks centered at the points of the stroke
path — changes (on an opaque surface); for the blur tool no pixel
outside the union of the brush-radius disks centered at the sampled
(interpolated) points changes; for the pixelate tool, however, the
correct containment region is larger: the union of the grid-aligned
cells whose centers lie within the brush radius of a sampled point.  The
original claim fails for pixelate, which paints whole grid cells
protruding beyond the brush disks; see the counterexample. -/
theorem c2_stroke_containment (w h : ℤ) :
    (∀ (t : ManualToolType) (st : BrushSettings K) (c0 : K × K)
       (moves : List (K × K)) (live0 : Surf) (ij : ℤ × ℤ),
      isComplexTool t = true → (∀ p, (live0 p).a = 1) →
      strokeCovers st.size (strokeSegs c0 moves) (pixCtr ij) = false →
      (runComplexStroke t st c0 moves live0).live ij = live0 ij) ∧
    (∀ (a b : K × K) (wd : K) (p : K × K),
      capsuleCovers a b wd p = true ↔
        (a ≠ b ∧ ∃ tt, 0 ≤ tt ∧ tt ≤ 1 ∧
          distSq p (segLerp a b tt) ≤ (wd / 2) ^ 2)) ∧
    (∀ (st : BrushSettings K) (restore : Option Surf) (blurK : Surf → Surf)
       (centers : List (K × K)) (s : Surf) (ij : ℤ × ℤ),
      (∀ cc ∈ centers, inDisk cc (st.size / 2) (pixCtr ij) = false) →
      runStamps .blur st restore blurK w h centers s ij = s ij) ∧
    (∀ (st : BrushSettings K) (restore : Option Surf) (blurK : Surf → Surf)
       (centers : List (K × K)) (s : Surf) (ij : ℤ × ℤ),
      (∀ cc ∈ centers, ∀ cell ∈ pixCells w h st.size st.intensity cc,
        ¬(pixCellInRadius st.size st.intensity cc cell = true ∧
          cellRectCovers w h (pixPs st.intensity) cell ij)) →
      runStamps .pixelate st restore blurK w h centers s ij = s ij) := by
  refine ⟨?_, capsuleCovers_iff_disks, ?_, ?_⟩
  · intro t st c0 moves live0 ij _ hop hcov
    rw [runComplexStroke_char t st c0 moves live0 hop]
    show blendRecompose t st live0 (strokeSegs c0 moves) ij = live0 ij
    unfold blendRecompose coverMask
    rw [hcov]
    simp only [Bool.false_eq_true, if_false]
    exact compositePix_clear_src _ _ _ (hop ij)
  · intro st restore blurK centers s ij hall
    refine runStamps_untouched .blur st restore blurK w h ij centers s ?_
    intro cc acc hcc
    have hstep : stampTool .blur st restore blurK w h cc acc =
        applyBlurDisk (blurK acc) st.size cc acc := by
      simp [stampTool]
    rw [hstep]
    unfold applyBlurDisk
    rw [hall cc hcc]
    simp
  · intro st restore blurK centers s ij hall
    refine runStamps_untouched .pixelate st restore blurK w h ij centers s ?_
    intro cc acc hcc
    have hstep : stampTool .pixelate st restore blurK w h cc acc =
        applyPixelate w h st.size st.intensity cc acc := by
      simp [stampTool]
    rw [hstep]
    refine applyPixelate_untouched w h st.size st.intensity cc acc ij ?_
    intro cell hcell
    rintro ⟨hr, -, hc⟩
    exact hall cc hcc cell hcell ⟨hr, hc⟩

/-- Witness for C2: a single blur sample of radius 2 at the origin does
not change the far-away pixel (9, 9). -/
theorem c2_witness :
    (∀ cc ∈ ([((0:ℚ), (0:ℚ))] : List (ℚ × ℚ)),
      inDisk cc ((4:ℚ) / 2) (pixCtr (9, 9)) = false) ∧
    runStamps .blur ⟨(4:ℚ), ⟨1, 0, 0⟩, 2⟩ none (fun s => s) 16 16
      [((0:ℚ), (0:ℚ))] (fun _ => (⟨⟨1, 1, 1⟩, 1⟩ : Pix)) (9, 9) =
      (⟨⟨1, 1, 1⟩, 1⟩ : Pix) := by
  have hdisk : ∀ cc ∈ ([((0:ℚ), (0:ℚ))] : List (ℚ × ℚ)),
      inDisk cc ((4:ℚ) / 2) (pixCtr (9, 9)) = false := by
    intro cc hcc
    rw [List.mem_singleton] at hcc
    subst hcc
    simp only [inDisk, distSq, pixCtr, decide_eq_false_iff_not]
    norm_num
  exact ⟨hdisk, (c2_stroke_containment 16 16).2.2.1 ⟨(4:ℚ), ⟨1, 0, 0⟩, 2⟩ none
    (fun s => s) [((0:ℚ), (0:ℚ))] (fun _ => (⟨⟨1, 1, 1⟩, 1⟩ : Pix)) (9, 9) hdisk⟩

/-- Counterexample for C2 as stated: one pixelate sample (the single
interpolated point of a tap) at (2, 2) with size 8 and intensity 8 on a
16 by 16 canvas fills the whole grid cell [0,8) squared, changing pixel
(7, 7) even though it lies outside the brush-radius disk around the
sample point. -/
theorem c2_counterexample :
    inDisk ((2:ℚ), (2:ℚ)) ((8:ℚ) / 2) (pixCtr (7, 7)) = false ∧
    runStamps .pixelate ⟨(8:ℚ), ⟨1, 1, 1⟩, 8⟩ none (fun s => s) 16 16
        [((2:ℚ), (2:ℚ))]
        (fun ij => if ij = (4, 4) then (⟨⟨0, 0, 0⟩, 1⟩ : Pix) else ⟨⟨1, 1, 1⟩, 1⟩)
        (7, 7) =
      (⟨⟨0, 0, 0⟩, 1⟩ : Pix) ∧
    (fun ij : ℤ × ℤ =>
        if ij = (4, 4) then (⟨⟨0, 0, 0⟩, 1⟩ : Pix) else ⟨⟨1, 1, 1⟩, 1⟩) (7, 7) =
      (⟨⟨1, 1, 1⟩, 1⟩ : Pix) := by
  refine ⟨?_, ?_, by norm_num⟩
  · simp only [inDisk, distSq, pixCtr, decide_eq_false_iff_not]
    norm_num
  · have hps : pixPs (8:ℚ) = 8 := by norm_num [pixPs]
    have hsx : pixStartX (8:ℚ) ((2:ℚ), 2) = 0 := by norm_num [pixStartX]
    have hsy : pixStartY (8:ℚ) ((2:ℚ), 2) = 0 := by norm_num [pixStartY]
    have hex : pixEndX 16 (8:ℚ) ((2:ℚ), 2) = 6 := by norm_num [pixEndX]
    have hey : pixEndY 16 (8:ℚ) ((2:ℚ), 2) = 6 := by norm_num [pixEndY]
    have hgx : pixGridX (8:ℚ) 8 ((2:ℚ), 2) = 0 := by
      rw [pixGridX, hsx, hps]
      norm_num
    have hgy : pixGridY (8:ℚ) 8 ((2:ℚ), 2) = 0 := by
      rw [pixGridY, hsy, hps]
      norm_num
    have hnx : pixNX 16 (8:ℚ) 8 ((2:ℚ), 2) = 1 := by
      rw [pixNX, hex, hgx, hps]
      have : (⌈(((6:ℤ) : ℚ) - 0) / 8⌉ : ℤ) = 1 := by
        rw [Int.ceil_eq_iff]
        norm_num
      rw [this]
      rfl
    have hny : pixNY 16 (8:ℚ) 8 ((2:ℚ), 2) = 1 := by
      rw [pixNY, hey, hgy, hps]
      have : (⌈(((6:ℤ) : ℚ) - 0) / 8⌉ : ℤ) = 1 := by
        rw [Int.ceil_eq_iff]
        norm_num
      rw [this]
      rfl
    have hguard : ¬(pixEndX 16 (8:ℚ) ((2:ℚ), 2) - pixStartX (8:ℚ) ((2:ℚ), 2) ≤ 0 ∨
        pixEndY 16 (8:ℚ) ((2:ℚ), 2) - pixStartY (8:ℚ) ((2:ℚ), 2) ≤ 0) := by
      rw [hex, hsx, hey, hsy]
      norm_num
    have hmem : ((0:ℚ), (0:ℚ)) ∈ pixCells 16 16 (8:ℚ) 8 ((2:ℚ), 2) := by
      unfold pixCells
      rw [List.mem_flatMap]
      refine ⟨0, ?_, ?_⟩
      · rw [List.mem_range, hny]
        norm_num
      · rw [List.mem_map]
        refine ⟨0, ?_, ?_⟩
        · rw [List.mem_range, hnx]
          norm_num
        · rw [hgx, hgy]
          norm_num
    have hrad : pixCellInRadius (8:ℚ) 8 ((2:ℚ), 2) (0, 0) = true := by
      simp only [pixCellInRadius, inDisk, distSq, hps, decide_eq_true_eq]
      norm_num
    have hbnd : pixCellInBounds 16 16 (8:ℚ) 8 ((2:ℚ), 2) ((0:ℚ), 0) = true := by
      simp only [pixCellInBounds, hps, hsx, hsy, hex, hey, decide_eq_true_eq]
      have h4 : (⌊(0:ℚ) + 8 / 2⌋ : ℤ) = 4 := by norm_num
      rw [h4]
      omega
    have hcov : cellRectCovers 16 16 (pixPs (8:ℚ)) ((0:ℚ), 0) (7, 7) := by
      rw [hps]
      unfold cellRectCovers
      norm_num
    have hfill := applyPixelate_fills 16 16 (8:ℚ) 8 ((2:ℚ), 2)
      (fun ij => if ij = (4, 4) then (⟨⟨0, 0, 0⟩, 1⟩ : Pix) else ⟨⟨1, 1, 1⟩, 1⟩)
      hguard ((0:ℚ), (0:ℚ)) hmem hrad hbnd (7, 7) hcov
    have hstep : runStamps .pixelate ⟨(8:ℚ), ⟨1, 1, 1⟩, 8⟩ none (fun s => s) 16 16
        [((2:ℚ), (2:ℚ))]
        (fun ij => if ij = (4, 4) then (⟨⟨0, 0, 0⟩, 1⟩ : Pix) else ⟨⟨1, 1, 1⟩, 1⟩) =
        applyPixelate 16 16 (8:ℚ) 8 ((2:ℚ), 2)
          (fun ij => if ij = (4, 4) then (⟨⟨0, 0, 0⟩, 1⟩ : Pix) else ⟨⟨1, 1, 1⟩, 1⟩) := by
      simp [runStamps, stampTool]
    rw [hstep, hfill]
    have h4 : ((⌊(0:ℚ) + pixPs (8:ℚ) / 2⌋ : ℤ), (⌊(0:ℚ) + pixPs (8:ℚ) / 2⌋ : ℤ)) =
        ((4:ℤ), (4:ℤ)) := by
      rw [hps]
      norm_num
    simp only [pixCellColor, h4]
    norm_num [storedRgb]

theorem sourceOverPix_clear_src_alpha (bd : Pix) (h : bd.a ≠ 0) :
    sourceOverPix bd clearPix = bd := by
  obtain ⟨⟨r, g, b⟩, a⟩ := bd
  simp only [sourceOverPix, compositePix, normalB, clearPix] at *
  simp only [Pix.mk.injEq, Rgb.mk.injEq]
  ring_nf
  refine ⟨⟨?_, ?_, ?_⟩, trivial⟩ <;> field_simp

/-- Claim C1 (corrected): for every blend-mode tool stroke over a fully
opaque surface, after each sample the live surface equals the
stroke-start snapshot recomposed once with the coverage-determined
stroke mask under the tool's blend mode (globalAlpha 0.4 for
lighten/darken, 1.0 otherwise), so the result depends only on the final
mask coverage and a stroke that doubles back matches a single pass on
the overlap.  (As stated — without the opacity premise — the claim
fails: the snapshot is redrawn source-over onto the live canvas, which
does not replace non-opaque pixels, and repeated samples re-apply the
blend there; see the counterexample.) -/
theorem c1_blend_depends_on_coverage (t : ManualToolType) (st : BrushSettings K)
    (c0 : K × K) (moves : List (K × K)) (live0 : Surf)
    (_hc : isComplexTool t = true) (hop : ∀ ij, (live0 ij).a = 1) :
    (∀ n : ℕ, (runComplexStroke t st c0 (List.take n moves) live0).live =
      blendRecompose t st live0 (strokeSegs c0 (List.take n moves))) ∧
    (∀ (moves2 : List (K × K)) (ij : ℤ × ℤ),
      strokeCovers st.size (strokeSegs c0 moves) (pixCtr ij) =
        strokeCovers st.size (strokeSegs c0 moves2) (pixCtr ij) →
      (runComplexStroke t st c0 moves live0).live ij =
        (runComplexStroke t st c0 moves2 live0).live ij) ∧
    (toolBlendAlpha .lighten = 2/5 ∧ toolBlendAlpha .darken = 2/5 ∧
      toolBlendAlpha .invert = 1 ∧ toolBlendAlpha .desaturate = 1 ∧
      toolBlendAlpha .tint = 1) := by
  refine ⟨?_, ?_, ?_⟩
  · intro n
    rw [runComplexStroke_char t st c0 (List.take n moves) live0 hop]
  · intro moves2 ij hcov
    rw [runComplexStroke_char t st c0 moves live0 hop,
      runComplexStroke_char t st c0 moves2 live0 hop]
    show blendRecompose t st live0 (strokeSegs c0 moves) ij =
      blendRecompose t st live0 (strokeSegs c0 moves2) ij
    unfold blendRecompose coverMask
    rw [hcov]
  · refine ⟨?_, ?_, ?_, ?_, ?_⟩ <;> simp [toolBlendAlpha]

/-- Witness for C1: a lighten tap on an opaque red surface. -/
theorem c1_witness :
    isComplexTool ManualToolType.lighten = true ∧
    (∀ ij : ℤ × ℤ, ((fun _ => (⟨⟨1, 0, 0⟩, 1⟩ : Pix)) ij).a = 1) ∧
    (∀ (moves2 : List (ℚ × ℚ)) (ij : ℤ × ℤ),
      strokeCovers (2:ℚ) (strokeSegs ((0:ℚ), (0:ℚ)) []) (pixCtr ij) =
        strokeCovers (2:ℚ) (strokeSegs ((0:ℚ), (0:ℚ)) moves2) (pixCtr ij) →
      (runComplexStroke .lighten ⟨(2:ℚ), ⟨1, 1, 0⟩, 1⟩ ((0:ℚ), (0:ℚ)) []
          (fun _ => (⟨⟨1, 0, 0⟩, 1⟩ : Pix))).live ij =
        (runComplexStroke .lighten ⟨(2:ℚ), ⟨1, 1, 0⟩, 1⟩ ((0:ℚ), (0:ℚ)) moves2
          (fun _ => (⟨⟨1, 0, 0⟩, 1⟩ : Pix))).live ij) := by
  refine ⟨by decide, fun _ => rfl, ?_⟩
  exact (c1_blend_depends_on_coverage .lighten ⟨(2:ℚ), ⟨1, 1, 0⟩, 1⟩
    ((0:ℚ), (0:ℚ)) [] (fun _ => (⟨⟨1, 0, 0⟩, 1⟩ : Pix)) (by decide)
    (fun _ => rfl)).2.1

/-- Counterexample for C1 as stated: over a transparent pixel of the
stroke-start snapshot, a lighten stroke from (0,0) to (2,0) and back
leaves pixel (0,0) at alpha 16/25, while the single pass leaves it at
alpha 2/5, although the stroke-mask coverage of the pixel is identical —
redrawing a transparent snapshot source-over does not reset the live
canvas, so each sample re-applies the 0.4-alpha blend. -/
theorem c1_counterexample :
    (strokeCovers (2:ℚ) (strokeSegs ((0:ℚ), (0:ℚ)) [(2, 0), (0, 0)]) (pixCtr (0, 0)) =
      strokeCovers (2:ℚ) (strokeSegs ((0:ℚ), (0:ℚ)) [(2, 0)]) (pixCtr (0, 0))) ∧
    (runComplexStroke .lighten ⟨(2:ℚ), ⟨1, 1, 0⟩, 1⟩ ((0:ℚ), (0:ℚ))
        [(2, 0), (0, 0)] (fun _ => clearPix)).live (0, 0) = ⟨⟨1, 1, 1⟩, 16/25⟩ ∧
    (runComplexStroke .lighten ⟨(2:ℚ), ⟨1, 1, 0⟩, 1⟩ ((0:ℚ), (0:ℚ))
        [(2, 0)] (fun _ => clearPix)).live (0, 0) = ⟨⟨1, 1, 1⟩, 2/5⟩ ∧
    (⟨⟨1, 1, 1⟩, 16/25⟩ : Pix) ≠ ⟨⟨1, 1, 1⟩, 2/5⟩ := by
  have hcov1 : capsuleCovers ((0:ℚ), (0:ℚ)) ((0:ℚ), (0:ℚ)) 2 (pixCtr (0, 0)) = false := by
    simp [capsuleCovers]
  have hcov2 : capsuleCovers ((0:ℚ), (0:ℚ)) ((2:ℚ), (0:ℚ)) 2 (pixCtr (0, 0)) = true := by
    rw [capsuleCovers, if_neg (by norm_num [Prod.ext_iff])]
    simp only [decide_eq_true_eq, distSqToSeg, closestT_eq]
    norm_num [distSq, segLerp, pixCtr]
  have hcov3 : capsuleCovers ((2:ℚ), (0:ℚ)) ((0:ℚ), (0:ℚ)) 2 (pixCtr (0, 0)) = true := by
    rw [capsuleCovers, if_neg (by norm_num [Prod.ext_iff])]
    simp only [decide_eq_true_eq, distSqToSeg, closestT_eq]
    norm_num [distSq, segLerp, pixCtr]
  have hcolor : toolStrokeColor .lighten (⟨(2:ℚ), ⟨1, 1, 0⟩, 1⟩ : BrushSettings ℚ) =
      ⟨1, 1, 1⟩ := by
    simp [toolStrokeColor]
  have halpha : toolBlendAlpha .lighten = 2/5 := by simp [toolBlendAlpha]
  have hfn : toolBlendFn .lighten = screenB := rfl
  have hstep1 : compositePix screenB (2/5) clearPix clearPix = clearPix :=
    compositePix_clear_both screenB (2/5) clearPix rfl
  have hstep2 : compositePix screenB (2/5) clearPix ⟨⟨1, 1, 1⟩, 1⟩ =
      ⟨⟨1, 1, 1⟩, 2/5⟩ := by
    simp only [compositePix, screenB, clearPix, Pix.mk.injEq, Rgb.mk.injEq]
    norm_num
  have hstep3 : compositePix screenB (2/5) ⟨⟨1, 1, 1⟩, 2/5⟩ ⟨⟨1, 1, 1⟩, 1⟩ =
      ⟨⟨1, 1, 1⟩, 16/25⟩ := by
    simp only [compositePix, screenB, Pix.mk.injEq, Rgb.mk.injEq]
    norm_num
  have hso1 : sourceOverPix clearPix clearPix = clearPix :=
    sourceOverPix_clear_of_canonical clearPix (Or.inr rfl)
  have hso2 : sourceOverPix (⟨⟨1, 1, 1⟩, 2/5⟩ : Pix) clearPix = ⟨⟨1, 1, 1⟩, 2/5⟩ :=
    sourceOverPix_clear_src_alpha _ (by norm_num)
  have hcov1n : capsuleCovers (0 : ℚ × ℚ) 0 2 (pixCtr 0) = false := by
    simpa only [Prod.mk_zero_zero] using hcov1
  have hcov2n : capsuleCovers (0 : ℚ × ℚ) ((2:ℚ), (0:ℚ)) 2 (pixCtr 0) = true := by
    simpa only [Prod.mk_zero_zero] using hcov2
  have hcov3n : capsuleCovers ((2:ℚ), (0:ℚ)) (0 : ℚ × ℚ) 2 (pixCtr 0) = true := by
    simpa only [Prod.mk_zero_zero] using hcov3
  refine ⟨?_, ?_, ?_, ?_⟩
  · simp [strokeCovers, strokeSegs, segsFrom, hcov1n, hcov2n, hcov3n]
  · simp only [runComplexStroke, runAux, complexSample, startComplex, capsulePaint,
      hcolor, halpha, hfn, hcov1, hcov2, hcov3]
    simp only [Bool.false_eq_true, if_false, if_true]
    rw [hso1, hstep1, hso1, hstep2, hso2, hstep3]
  · simp only [runComplexStroke, runAux, complexSample, startComplex, capsulePaint,
      hcolor, halpha, hfn, hcov1, hcov2, hcov3]
    simp only [Bool.false_eq_true, if_false, if_true]
    rw [hso1, hstep1, hso1, hstep2]
  · simp only [ne_eq, Pix.mk.injEq, not_and]
    intro _
    norm_num

theorem sourceOverPix_self_canonical (p : Pix) (h : p.canonical) :
    sourceOverPix p p = p := by
  rcases h with h | h
  · rw [sourceOverPix_fullAlpha _ _ h, Pix.eta_fullAlpha _ h]
  · rw [h]
    exact sourceOverPix_clear_of_canonical clearPix (Or.inr rfl)

theorem compositePix_clear_canonical (B : Rgb → Rgb → Rgb) (ga : ℚ) (p : Pix)
    (h : p.canonical) : compositePix B ga p clearPix = p := by
  rcases h with h | h
  · exact compositePix_clear_src B ga p h
  · rw [h]
    exact compositePix_clear_both B ga clearPix rfl

theorem samplePositions_self (c : ℝ × ℝ) (step : ℝ) :
    samplePositions c c step = [c] := by
  unfold samplePositions
  simp only [sub_self]
  norm_num
  rw [show List.range 1 = [0] from rfl, List.map_cons, List.map_nil]
  norm_num

theorem sourceOverPix_halfWhite :
    sourceOverPix (⟨⟨1, 1, 1⟩, 1/2⟩ : Pix) (⟨⟨1, 1, 1⟩, 1/2⟩ : Pix) =
      (⟨⟨1, 1, 1⟩, 3/4⟩ : Pix) := by
  simp only [sourceOverPix, compositePix, normalB, Pix.mk.injEq, Rgb.mk.injEq]
  norm_num

theorem compositePix_clear_alpha_pos (B : Rgb → Rgb → Rgb) (ga : ℚ) (bd : Pix)
    (h : bd.a ≠ 0) : compositePix B ga bd clearPix = bd := by
  obtain ⟨⟨r, g, b⟩, a⟩ := bd
  simp only at h
  simp only [compositePix, clearPix, Pix.mk.injEq, Rgb.mk.injEq]
  norm_num
  exact ⟨mul_div_cancel_left₀ r h, mul_div_cancel_left₀ g h,
    mul_div_cancel_left₀ b h⟩

/-- Claim C8 (corrected): pointer-down records the first point as both
the previous and current position and immediately runs one draw sample.
That sample paints a dot for the per-point stamping tools (eraser, blur,
pixelate: the interpolation loop degenerates to the single tap point and
the tool stamps there once); for the brush and censor the zero-length
segment is pruned by the canvas stroking algorithm and the tap leaves
the surface unchanged unconditionally; for the blend-mode tools the
pruned mask deposits no blend paint and the tap leaves the surface
unchanged wherever every pixel is fully opaque or exactly transparent —
but over semi-transparent pixels the tap's source-over snapshot redraw
densifies alpha, changing the raster even far from the tap point (a
uniform half-transparent white surface becomes alpha 3/4 at pixel
(5, 5)). So the original "for every tool a single tap paints a dot"
fails; see the counterexample. -/
theorem c8_tap_behavior (t : ManualToolType) (st : BrushSettings ℝ)
    (restore : Option Surf) (blurK : Surf → Surf) (w h : ℤ) (c : ℝ × ℝ)
    (s : Surf) (hcanon : ∀ ij, (s ij).canonical) :
    (stampsPerPoint t = true →
      tapStroke t st restore blurK w h c s =
        stampTool t st restore blurK w h c s) ∧
    (t = .brush ∨ t = .censor → tapStroke t st restore blurK w h c s = s) ∧
    (isComplexTool t = true →
      ∀ ij, tapStroke t st restore blurK w h c s ij = s ij) ∧
    (isComplexTool t = true →
      tapStroke t st restore blurK w h c
          (fun _ => (⟨⟨1, 1, 1⟩, 1/2⟩ : Pix)) (5, 5) =
        (⟨⟨1, 1, 1⟩, 3/4⟩ : Pix) ∧
      (⟨⟨1, 1, 1⟩, 3/4⟩ : Pix) ≠ (⟨⟨1, 1, 1⟩, 1/2⟩ : Pix)) := by
  refine ⟨?_, ?_, ?_, ?_⟩
  · intro ht
    have hparts : isComplexTool t = false ∧ ¬t = .brush ∧ ¬t = .censor := by
      simp only [stampsPerPoint, Bool.and_eq_true, Bool.not_eq_true',
        decide_eq_true_eq, decide_eq_false_iff_not] at ht
      exact ⟨ht.1.1, ht.1.2, ht.2⟩
    unfold tapStroke drawSimple
    rw [hparts.1]
    simp only [Bool.false_eq_true, if_false]
    rw [if_neg hparts.2.1, if_neg hparts.2.2, samplePositions_self]
    rfl
  · rintro (rfl | rfl)
    · unfold tapStroke drawSimple
      simp only [isComplexTool]
      norm_num
      funext ij
      simp [capsulePaint, capsuleCovers]
    · unfold tapStroke drawSimple
      simp only [isComplexTool]
      norm_num
      funext ij
      simp [censorPaint, buttCovers]
  · intro hc ij
    unfold tapStroke
    rw [hc]
    simp only [if_true]
    show (complexSample t st (startComplex s) c c).live ij = s ij
    have hmask : capsulePaint (toolStrokeColor t st) st.size c c
        (fun _ => clearPix) ij = clearPix := by
      simp [capsulePaint, capsuleCovers]
    simp only [complexSample, startComplex]
    rw [hmask, sourceOverPix_self_canonical _ (hcanon ij),
      compositePix_clear_canonical _ _ _ (hcanon ij)]
  · intro hc
    refine ⟨?_, by norm_num [Pix.mk.injEq]⟩
    unfold tapStroke
    rw [hc]
    simp only [if_true]
    show (complexSample t st
        (startComplex (fun _ => (⟨⟨1, 1, 1⟩, 1/2⟩ : Pix))) c c).live (5, 5) =
      (⟨⟨1, 1, 1⟩, 3/4⟩ : Pix)
    have hmask : capsulePaint (toolStrokeColor t st) st.size c c
        (fun _ => clearPix) (5, 5) = clearPix := by
      simp [capsulePaint, capsuleCovers]
    simp only [complexSample, startComplex]
    rw [hmask, sourceOverPix_halfWhite]
    exact compositePix_clear_alpha_pos _ _ _ (by norm_num)

/-- Witness for C8: an eraser tap on an opaque white surface stamps the
eraser exactly once at the tap point. -/
theorem c8_witness :
    stampsPerPoint ManualToolType.eraser = true ∧
    (∀ ij : ℤ × ℤ, ((fun _ => (⟨⟨1, 1, 1⟩, 1⟩ : Pix)) ij).canonical) ∧
    tapStroke .eraser ⟨(4:ℝ), ⟨1, 0, 0⟩, 1⟩ none (fun x => x) 10 10
        ((0:ℝ), (0:ℝ)) (fun _ => (⟨⟨1, 1, 1⟩, 1⟩ : Pix)) =
      stampTool .eraser ⟨(4:ℝ), ⟨1, 0, 0⟩, 1⟩ none (fun x => x) 10 10
        ((0:ℝ), (0:ℝ)) (fun _ => (⟨⟨1, 1, 1⟩, 1⟩ : Pix)) := by
  refine ⟨by decide, fun _ => Or.inl rfl, ?_⟩
  exact (c8_tap_behavior .eraser ⟨(4:ℝ), ⟨1, 0, 0⟩, 1⟩ none (fun x => x) 10 10
    ((0:ℝ), (0:ℝ)) (fun _ => (⟨⟨1, 1, 1⟩, 1⟩ : Pix))
    (fun _ => Or.inl rfl)).1 (by decide)

/-- Counterexample for C8 as stated: a brush tap at (1/2, 1/2) on a white
surface paints nothing — the zero-length segment is pruned — so pixel
(0, 0) stays white instead of receiving the red brush color. -/
theorem c8_counterexample :
    tapStroke .brush ⟨(4:ℝ), ⟨1, 0, 0⟩, 1⟩ none (fun x => x) 10 10
        ((1:ℝ)/2, (1:ℝ)/2) (fun _ => (⟨⟨1, 1, 1⟩, 1⟩ : Pix)) (0, 0) =
      (⟨⟨1, 1, 1⟩, 1⟩ : Pix) ∧
    (⟨⟨1, 1, 1⟩, 1⟩ : Pix) ≠ (⟨⟨1, 0, 0⟩, 1⟩ : Pix) := by
  constructor
  · unfold tapStroke drawSimple
    simp only [isComplexTool]
    norm_num
    simp [capsulePaint, capsuleCovers]
  · simp

theorem complexAbs_mk_sqrt (x y : ℝ) :
    Complex.abs ⟨x, y⟩ = Real.sqrt (x ^ 2 + y ^ 2) := by
  rw [Complex.abs_apply, Complex.normSq_mk]
  congr 1
  ring

/-- The interpolation loop samples exactly the points of the segment at
arc-length multiples of the step, from the previous point up to the
segment length. -/
theorem samplePositions_mem (prev cur : ℝ × ℝ) (step : ℝ) (hstep : 0 < step)
    (q : ℝ × ℝ) :
    q ∈ samplePositions prev cur step ↔
      ∃ k : ℕ, (k : ℝ) * step ≤
          Real.sqrt ((cur.1 - prev.1) ^ 2 + (cur.2 - prev.2) ^ 2) ∧
        q = segLerp prev cur (((k : ℝ) * step) /
          Real.sqrt ((cur.1 - prev.1) ^ 2 + (cur.2 - prev.2) ^ 2)) := by
  by_cases hz : (⟨cur.1 - prev.1, cur.2 - prev.2⟩ : ℂ) = 0
  · have hdx : cur.1 - prev.1 = 0 := congrArg Complex.re hz
    have hdy : cur.2 - prev.2 = 0 := congrArg Complex.im hz
    have hcur : cur = prev := by
      have h1 : cur.1 = prev.1 := by linarith
      have h2 : cur.2 = prev.2 := by linarith
      exact Prod.ext h1 h2
    subst hcur
    rw [samplePositions_self]
    simp only [sub_self, List.mem_singleton]
    constructor
    · rintro rfl
      refine ⟨0, ?_, ?_⟩
      · simp [Real.sqrt_nonneg]
      · simp [segLerp]
    · rintro ⟨k, hk, rfl⟩
      simp [segLerp]
  · have hdist_pos : 0 < Real.sqrt ((cur.1 - prev.1) ^ 2 + (cur.2 - prev.2) ^ 2) := by
      apply Real.sqrt_pos.mpr
      rcases (by simpa [Complex.ext_iff] using hz :
        ¬(cur.1 - prev.1 = 0 ∧ cur.2 - prev.2 = 0)) with h
      rcases not_and_or.mp h with h1 | h2
      · positivity
      · positivity
    have habs : Complex.abs ⟨cur.1 - prev.1, cur.2 - prev.2⟩ =
        Real.sqrt ((cur.1 - prev.1) ^ 2 + (cur.2 - prev.2) ^ 2) :=
      complexAbs_mk_sqrt _ _
    have hcos : Real.cos (Complex.arg ⟨cur.1 - prev.1, cur.2 - prev.2⟩) =
        (cur.1 - prev.1) / Real.sqrt ((cur.1 - prev.1) ^ 2 + (cur.2 - prev.2) ^ 2) := by
      rw [Complex.cos_arg hz, habs]
    have hsin : Real.sin (Complex.arg ⟨cur.1 - prev.1, cur.2 - prev.2⟩) =
        (cur.2 - prev.2) / Real.sqrt ((cur.1 - prev.1) ^ 2 + (cur.2 - prev.2) ^ 2) := by
      rw [Complex.sin_arg, habs]
    unfold samplePositions
    rw [List.mem_map]
    constructor
    · rintro ⟨k, hk, rfl⟩
      rw [List.mem_range, Nat.lt_succ_iff,
        Int.le_toNat (Int.floor_nonneg.mpr (div_nonneg (Real.sqrt_nonneg _) hstep.le)),
        Int.le_floor, le_div_iff₀ hstep] at hk
      refine ⟨k, hk, ?_⟩
      rw [hcos, hsin]
      unfold segLerp
      rw [Prod.mk.injEq]
      constructor <;> ring
    · rintro ⟨k, hk, rfl⟩
      refine ⟨k, ?_, ?_⟩
      · rw [List.mem_range, Nat.lt_succ_iff,
          Int.le_toNat (Int.floor_nonneg.mpr (div_nonneg (Real.sqrt_nonneg _) hstep.le)),
          Int.le_floor, le_div_iff₀ hstep]
        exact hk
      · rw [hcos, hsin]
        unfold segLerp
        rw [Prod.mk.injEq]
        constructor <;> ring

/-- Claim C4 (corrected): the tools that stamp per point along the
interpolated segment are exactly the eraser, blur and pixelate — the
spec wrongly lists lighten/darken, which are complex tools and take the
two-buffer blend path instead (see the counterexample).  For the stamped
tools, `draw` runs the interpolation loop with step size exactly
`max(1, size/4)`, applying the per-point tool operation at each sample
position, and the sample positions are exactly the points of the segment
at arc-length multiples of the step from the previous point up to the
segment length. -/
theorem c4_interpolated_stamping (t : ManualToolType) (st : BrushSettings ℝ)
    (restore : Option Surf) (blurK : Surf → Surf) (w h : ℤ)
    (prev cur : ℝ × ℝ) (s : Surf) (ht : stampsPerPoint t = true) :
    (t = .eraser ∨ t = .blur ∨ t = .pixelate) ∧
    stepSize st.size = max 1 (st.size / 4) ∧
    drawSimple t st restore blurK w h prev cur s =
      runStamps t st restore blurK w h
        (samplePositions prev cur (stepSize st.size)) s ∧
    (∀ q, q ∈ samplePositions prev cur (stepSize st.size) ↔
      ∃ k : ℕ, (k : ℝ) * stepSize st.size ≤
          Real.sqrt ((cur.1 - prev.1) ^ 2 + (cur.2 - prev.2) ^ 2) ∧
        q = segLerp prev cur (((k : ℝ) * stepSize st.size) /
          Real.sqrt ((cur.1 - prev.1) ^ 2 + (cur.2 - prev.2) ^ 2))) := by
  have h1 : t = .eraser ∨ t = .blur ∨ t = .pixelate := by
    cases t
    · exact absurd ht (by decide)
    · exact Or.inr (Or.inl rfl)
    · exact Or.inr (Or.inr rfl)
    · exact Or.inl rfl
    · exact absurd ht (by decide)
    · exact absurd ht (by decide)
    · exact absurd ht (by decide)
    · exact absurd ht (by decide)
    · exact absurd ht (by decide)
    · exact absurd ht (by decide)
  have hnb : ¬t = .brush := by
    rintro rfl
    exact absurd ht (by decide)
  have hnc : ¬t = .censor := by
    rintro rfl
    exact absurd ht (by decide)
  refine ⟨h1, rfl, ?_, ?_⟩
  · unfold drawSimple
    rw [if_neg hnb, if_neg hnc]
  · intro q
    exact samplePositions_mem prev cur (stepSize st.size)
      (lt_of_lt_of_le one_pos (le_max_left 1 (st.size / 4))) q

/-- Witness for C4: the eraser is a stamped tool, at segment (0,0) to
(3,4). -/
theorem c4_witness :
    stampsPerPoint ManualToolType.eraser = true ∧
    drawSimple .eraser ⟨(8:ℝ), ⟨1, 0, 0⟩, 1⟩ none (fun x => x) 10 10
        ((0:ℝ), (0:ℝ)) ((3:ℝ), (4:ℝ)) (fun _ => (⟨⟨1, 1, 1⟩, 1⟩ : Pix)) =
      runStamps .eraser ⟨(8:ℝ), ⟨1, 0, 0⟩, 1⟩ none (fun x => x) 10 10
        (samplePositions ((0:ℝ), (0:ℝ)) ((3:ℝ), (4:ℝ)) (stepSize (8:ℝ)))
        (fun _ => (⟨⟨1, 1, 1⟩, 1⟩ : Pix)) := by
  refine ⟨by decide, ?_⟩
  exact (c4_interpolated_stamping .eraser ⟨(8:ℝ), ⟨1, 0, 0⟩, 1⟩ none (fun x => x)
    10 10 ((0:ℝ), (0:ℝ)) ((3:ℝ), (4:ℝ)) (fun _ => (⟨⟨1, 1, 1⟩, 1⟩ : Pix))
    (by decide)).2.2.1

/-- Counterexample for C4 as stated: lighten and darken do not stamp per
point — they are complex tools, routed by `draw` to the two-buffer blend
pipeline, which strokes each pointer-move segment as one continuous line
into the mask buffer with no `max(1, size/4)` sub-stepping. -/
theorem c4_counterexample :
    isComplexTool ManualToolType.lighten = true ∧
    stampsPerPoint ManualToolType.lighten = false ∧
    isComplexTool ManualToolType.darken = true ∧
    stampsPerPoint ManualToolType.darken = false ∧
    stampsPerPoint ManualToolType.eraser = true ∧
    stampsPerPoint ManualToolType.blur = true ∧
    stampsPerPoint ManualToolType.pixelate = true := by
  decide

theorem getFaceGeometry_fields (f : FaceDetection) :
    (getFaceGeometry f).centerX = f.boundingBox.originX + f.boundingBox.width / 2 ∧
    (getFaceGeometry f).centerY = f.boundingBox.originY + f.boundingBox.height / 2 ∧
    (getFaceGeometry f).width = f.boundingBox.width ∧
    (getFaceGeometry f).height = f.boundingBox.height := by
  rcases f with ⟨bb, ls, pr⟩
  match ls with
  | [] => exact ⟨rfl, rfl, rfl, rfl⟩
  | [p] => exact ⟨rfl, rfl, rfl, rfl⟩
  | p0 :: p1 :: rest => exact ⟨rfl, rfl, rfl, rfl⟩

theorem getFaceGeometry_angle_zero (f : FaceDetection)
    (hlm : f.landmarks.length < 2) : (getFaceGeometry f).angle = 0 := by
  rcases f with ⟨bb, ls, pr⟩
  match ls, hlm with
  | [], _ => rfl
  | [p], _ => rfl

theorem rot2_neg_zero (v : ℝ × ℝ) : rot2 (-0) v = v := by
  simp [rot2]

/-- With fewer than two landmarks the rotation angle is 0, and the
ellipse branch of censor-eyes redraws the unprocessed upright capture
exactly onto itself. -/
theorem ellipseBranch_censor_id (f : FaceDetection) (blurK pixK : FSurf → FSurf)
    (s : FSurf) (hangle : (getFaceGeometry f).angle = 0)
    (hcanon : ∀ q, (s q).canonical) :
    ∀ q, ellipseBranch .censorEyes blurK pixK f s q = s q := by
  intro q
  obtain ⟨hcx, hcy, hw, hh⟩ := getFaceGeometry_fields f
  have hptex : procTex .censorEyes blurK pixK (captureTex s f) = captureTex s f := by
    unfold procTex
    rw [if_neg (by decide), if_neg (by decide)]
  unfold ellipseBranch
  simp only [hangle, hptex, rot2_neg_zero]
  set u1 := q.1 - (getFaceGeometry f).centerX with hu1
  set u2 := q.2 - (getFaceGeometry f).centerY with hu2
  by_cases hell : u1 ^ 2 * ((getFaceGeometry f).height / 2) ^ 2 +
      u2 ^ 2 * ((getFaceGeometry f).width / 2) ^ 2 ≤
      ((getFaceGeometry f).width / 2) ^ 2 * ((getFaceGeometry f).height / 2) ^ 2
  · rw [if_pos hell]
    unfold captureTex
    by_cases hin : 0 ≤ u1 + (getFaceGeometry f).width / 2 ∧
        u1 + (getFaceGeometry f).width / 2 < f.boundingBox.width ∧
        0 ≤ u2 + (getFaceGeometry f).height / 2 ∧
        u2 + (getFaceGeometry f).height / 2 < f.boundingBox.height
    · rw [if_pos hin]
      have harg : (f.boundingBox.originX + (u1 + (getFaceGeometry f).width / 2),
          f.boundingBox.originY + (u2 + (getFaceGeometry f).height / 2)) = q := by
        rw [Prod.mk.injEq]
        constructor
        · rw [hu1, hcx, hw]
          ring
        · rw [hu2, hcy, hh]
          ring
      rw [harg]
      exact sourceOverPix_self_canonical _ (hcanon q)
    · rw [if_neg hin]
      exact sourceOverPix_clear_of_canonical _ (hcanon q)
  · rw [if_neg hell]

/-- Claim C10 (confirmed): censor-eyes on a face with fewer than two
landmarks does not skip the face — it takes the ellipse branch with
rotation angle 0, captures the upright bounding box, applies neither
blur nor pixelation, and draws the unprocessed capture back into the
ellipse clip, so no censor bar is drawn, the face region is repainted
with its own pixels (leaving a canonically-representable surface
unchanged), and the batch still emits exactly one update. -/
theorem c10_censor_eyes_without_landmarks (f : FaceDetection)
    (blurK pixK : FSurf → FSurf) (s : FSurf)
    (hlm : f.landmarks.length < 2) (hcanon : ∀ q, (s q).canonical) :
    perFaceEffect .censorEyes blurK pixK f s =
      ellipseBranch .censorEyes blurK pixK f s ∧
    (∀ q, perFaceEffect .censorEyes blurK pixK f s q = s q) ∧
    (∀ (faces : List FaceDetection) (s2 : FSurf),
      (applyFaceEffects faces .censorEyes blurK pixK s2).2 = 1) := by
  have hbranch : perFaceEffect .censorEyes blurK pixK f s =
      ellipseBranch .censorEyes blurK pixK f s := by
    unfold perFaceEffect
    exact if_neg fun hcon => absurd hcon.2 (not_le.mpr hlm)
  refine ⟨hbranch, ?_, fun _ _ => rfl⟩
  intro q
  rw [hbranch]
  exact ellipseBranch_censor_id f blurK pixK s
    (getFaceGeometry_angle_zero f hlm) hcanon q

/-- Witness for C10: a landmark-free face on an opaque white surface. -/
theorem c10_witness :
    ((⟨⟨0, 0, 4, 4⟩, [], 1⟩ : FaceDetection)).landmarks.length < 2 ∧
    (∀ q : ℝ × ℝ, ((fun _ => (⟨⟨1, 1, 1⟩, 1⟩ : Pix)) q).canonical) ∧
    (∀ q, perFaceEffect .censorEyes id id (⟨⟨0, 0, 4, 4⟩, [], 1⟩ : FaceDetection)
        (fun _ => (⟨⟨1, 1, 1⟩, 1⟩ : Pix)) q = (⟨⟨1, 1, 1⟩, 1⟩ : Pix)) := by
  refine ⟨by norm_num, fun _ => Or.inl rfl, ?_⟩
  exact (c10_censor_eyes_without_landmarks (⟨⟨0, 0, 4, 4⟩, [], 1⟩ : FaceDetection)
    id id (fun _ => (⟨⟨1, 1, 1⟩, 1⟩ : Pix)) (by norm_num) (fun _ => Or.inl rfl)).2.1

theorem getFaceGeometry_angle_of_two (f : FaceDetection)
    (h2 : 2 ≤ f.landmarks.length) :
    (getFaceGeometry f).angle =
      atan2 ((f.landmarks.getD 1 (0, 0)).2 - (f.landmarks.getD 0 (0, 0)).2)
        ((f.landmarks.getD 1 (0, 0)).1 - (f.landmarks.getD 0 (0, 0)).1) := by
  rcases f with ⟨bb, ls, pr⟩
  match ls, h2 with
  | p0 :: p1 :: rest, _ => rfl

/-- The direction (cos θ, sin θ) of the angle θ = atan2(y, x) is
collinear with the vector (x, y). -/
theorem cos_atan2_cross (y x : ℝ) :
    Real.cos (atan2 y x) * y = Real.sin (atan2 y x) * x := by
  unfold atan2
  by_cases hz : (⟨x, y⟩ : ℂ) = 0
  · have hx : x = 0 := congrArg Complex.re hz
    have hy : y = 0 := congrArg Complex.im hz
    rw [hx, hy]
    ring
  · rw [Complex.cos_arg hz, Complex.sin_arg]
    show x / Complex.abs ⟨x, y⟩ * y = y / Complex.abs ⟨x, y⟩ * x
    ring

theorem rot2_inner_dir (θ : ℝ) (u : ℝ × ℝ) :
    (rot2 θ u).1 * Real.cos θ + (rot2 θ u).2 * Real.sin θ = u.1 := by
  unfold rot2
  linear_combination u.1 * Real.sin_sq_add_cos_sq θ

theorem rot2_inner_perp (θ : ℝ) (u : ℝ × ℝ) :
    -(rot2 θ u).1 * Real.sin θ + (rot2 θ u).2 * Real.cos θ = u.2 := by
  unfold rot2
  linear_combination u.2 * Real.sin_sq_add_cos_sq θ

theorem rot2_of_inner (θ : ℝ) (v : ℝ × ℝ) :
    rot2 θ (v.1 * Real.cos θ + v.2 * Real.sin θ,
      -v.1 * Real.sin θ + v.2 * Real.cos θ) = v := by
  unfold rot2
  rw [Prod.mk.injEq]
  constructor
  · linear_combination v.1 * Real.sin_sq_add_cos_sq θ
  · linear_combination v.2 * Real.sin_sq_add_cos_sq θ

open Classical in
/-- Claim C6 (confirmed): for every face with at least two landmarks,
censor-eyes fills an opaque black rectangle of width equal to the face
width and height equal to 0.25 times the face height, vertically offset
0.1 times the face height above the geometric center, in the frame
rotated to the eye-line angle: the filled region is exactly the set of
points whose signed extent along the eye-line direction (cos θ, sin θ)
is at most width/2 and whose extent along the perpendicular, re-centered
0.1 height above the center, is at most height/8 — so the bar's long
axis is parallel to the eye-line angle, whose direction is collinear
with the eye-landmark vector. -/
theorem c6_censor_bar_parallel_to_eyes (f : FaceDetection)
    (blurK pixK : FSurf → FSurf) (s : FSurf)
    (h2 : 2 ≤ f.landmarks.length) :
    perFaceEffect .censorEyes blurK pixK f s =
      (fun q => if q ∈ censorBarRegion f then ⟨⟨0, 0, 0⟩, 1⟩ else s q) ∧
    censorBarRegion f = {q : ℝ × ℝ |
      |(q.1 - (getFaceGeometry f).centerX) * Real.cos (getFaceGeometry f).angle +
        (q.2 - (getFaceGeometry f).centerY) * Real.sin (getFaceGeometry f).angle| ≤
        (getFaceGeometry f).width / 2 ∧
      |(-(q.1 - (getFaceGeometry f).centerX)) * Real.sin (getFaceGeometry f).angle +
        (q.2 - (getFaceGeometry f).centerY) * Real.cos (getFaceGeometry f).angle +
        (getFaceGeometry f).height / 10| ≤ (getFaceGeometry f).height / 8} ∧
    Real.cos (getFaceGeometry f).angle *
        ((f.landmarks.getD 1 (0, 0)).2 - (f.landmarks.getD 0 (0, 0)).2) =
      Real.sin (getFaceGeometry f).angle *
        ((f.landmarks.getD 1 (0, 0)).1 - (f.landmarks.getD 0 (0, 0)).1) := by
  refine ⟨?_, ?_, ?_⟩
  · unfold perFaceEffect
    exact if_pos ⟨rfl, h2⟩
  · simp only [censorBarRegion]
    ext q
    rw [Set.mem_image]
    simp only [Set.mem_setOf_eq]
    constructor
    · rintro ⟨u, hu, rfl⟩
      obtain ⟨hx1, hx2, hy1, hy2⟩ := hu
      simp only [add_sub_cancel_left]
      rw [rot2_inner_dir]
      have hperp := rot2_inner_perp (getFaceGeometry f).angle u
      constructor
      · rw [abs_le]
        constructor <;> linarith
      · rw [show (-(rot2 (getFaceGeometry f).angle u).1) *
            Real.sin (getFaceGeometry f).angle +
            (rot2 (getFaceGeometry f).angle u).2 * Real.cos (getFaceGeometry f).angle =
            u.2 from hperp]
        rw [abs_le]
        constructor <;> linarith
    · rintro ⟨hd, hp⟩
      obtain ⟨hd1, hd2⟩ := abs_le.mp hd
      obtain ⟨hp1, hp2⟩ := abs_le.mp hp
      refine ⟨((q.1 - (getFaceGeometry f).centerX) * Real.cos (getFaceGeometry f).angle +
          (q.2 - (getFaceGeometry f).centerY) * Real.sin (getFaceGeometry f).angle,
        -(q.1 - (getFaceGeometry f).centerX) * Real.sin (getFaceGeometry f).angle +
          (q.2 - (getFaceGeometry f).centerY) * Real.cos (getFaceGeometry f).angle),
        ⟨by dsimp only; linarith, by dsimp only; linarith,
         by dsimp only; linarith, by dsimp only; linarith⟩, ?_⟩
      have hrot := rot2_of_inner (getFaceGeometry f).angle
        (q.1 - (getFaceGeometry f).centerX, q.2 - (getFaceGeometry f).centerY)
      rw [hrot, Prod.mk.injEq]
      constructor <;> ring
  · rw [getFaceGeometry_angle_of_two f h2]
    exact cos_atan2_cross _ _

open Classical in
/-- Witness for C6 on a concrete face with two landmarks. -/
theorem c6_witness :
    2 ≤ ((⟨⟨0, 0, 4, 2⟩, [(0, 0), (1, 1)], 1⟩ : FaceDetection)).landmarks.length ∧
    perFaceEffect .censorEyes id id
        (⟨⟨0, 0, 4, 2⟩, [(0, 0), (1, 1)], 1⟩ : FaceDetection)
        (fun _ => (⟨⟨1, 1, 1⟩, 1⟩ : Pix)) =
      (fun q => if q ∈ censorBarRegion
          (⟨⟨0, 0, 4, 2⟩, [(0, 0), (1, 1)], 1⟩ : FaceDetection)
        then ⟨⟨0, 0, 0⟩, 1⟩ else (fun _ => (⟨⟨1, 1, 1⟩, 1⟩ : Pix)) q) := by
  refine ⟨by norm_num, ?_⟩
  exact (c6_censor_bar_parallel_to_eyes
    (⟨⟨0, 0, 4, 2⟩, [(0, 0), (1, 1)], 1⟩ : FaceDetection) id id
    (fun _ => (⟨⟨1, 1, 1⟩, 1⟩ : Pix)) (by norm_num)).1

end Photomini
